import Mathlib

/-!
Verification of the rtf-toolkit track-changes engine and RTF parser.

The definitions below are a shallow embedding of the TypeScript sources:
  * src/parser/tokenizer.ts   (Scanner and tokenize, the hardened version)
  * src/parser/parser.ts      (Parser class, the full version with revisions)
  * src/track-changes parser  (cloneDocument, extractText, findRevisionById,
    getTrackChanges, acceptChange, rejectChange, acceptAllChanges,
    rejectAllChanges)

JS numbers that hold integer values are modelled as Int (or Nat where the
source can only produce non-negative counts), optional fields as Option,
JS "null"/exception outcomes as Option/Except results.  JS strings are
modelled as Lean strings; String.fromCharCode applies ToUint16, which we
model with an explicit mod 2 ^ 16 (lone UTF-16 surrogates, which Lean's
Char cannot represent, are collapsed to NUL by Char.ofNat; no claim input
produces a surrogate).  Loops that consume a variable number of tokens per
iteration carry an explicit fuel argument so that every definition is
structurally recursive and kernel-computable; every wrapper passes fuel
larger than the iteration count, so the fuel branch is unreachable.
-/

deriving instance DecidableEq for Except

namespace Rtf

/-! ## AST types (src/parser/ast-simple.ts, full version) -/

inductive RevisionType where
  | insertion
  | deletion
  | formatting
deriving DecidableEq

structure CharacterFormatting where
  bold : Option Bool := none
  italic : Option Bool := none
  underline : Option Bool := none
  fontSize : Option Int := none
  font : Option Int := none
  foregroundColor : Option Int := none
  backgroundColor : Option Int := none
deriving DecidableEq

inductive Alignment where
  | left
  | center
  | right
  | justify
deriving DecidableEq

structure ParagraphFormatting where
  alignment : Option Alignment := none
  spaceBefore : Option Int := none
  spaceAfter : Option Int := none
  leftIndent : Option Int := none
  rightIndent : Option Int := none
  firstLineIndent : Option Int := none
deriving DecidableEq

/-- InlineNode = TextNode | RevisionNode; revision content may nest. -/
inductive InlineNode where
  | text (content : String) (formatting : CharacterFormatting)
  | revision (revisionType : RevisionType) (content : List InlineNode)
      (author : Option Int) (timestamp : Option Int)

mutual

/-- Structural equality test for inline nodes (deriving cannot handle the
nested List occurrence, so the instance is built by hand). -/
def inlineBeq : InlineNode → InlineNode → Bool
  | .text c1 f1, .text c2 f2 => c1 == c2 && f1 == f2
  | .revision t1 cs1 a1 ts1, .revision t2 cs2 a2 ts2 =>
      t1 == t2 && inlineListBeq cs1 cs2 && a1 == a2 && ts1 == ts2
  | _, _ => false

def inlineListBeq : List InlineNode → List InlineNode → Bool
  | [], [] => true
  | a :: as, b :: bs => inlineBeq a b && inlineListBeq as bs
  | _, _ => false

end

mutual

theorem inlineBeq_iff : ∀ a b : InlineNode, inlineBeq a b = true ↔ a = b
  | .text c1 f1, .text c2 f2 => by simp [inlineBeq]
  | .revision t1 cs1 a1 ts1, .revision t2 cs2 a2 ts2 => by
      simp [inlineBeq, inlineListBeq_iff cs1 cs2, and_assoc]
  | .text _ _, .revision _ _ _ _ => by simp [inlineBeq]
  | .revision _ _ _ _, .text _ _ => by simp [inlineBeq]

theorem inlineListBeq_iff : ∀ as bs : List InlineNode, inlineListBeq as bs = true ↔ as = bs
  | [], [] => by simp [inlineListBeq]
  | a :: as, b :: bs => by
      simp [inlineListBeq, inlineBeq_iff a b, inlineListBeq_iff as bs]
  | [], _ :: _ => by simp [inlineListBeq]
  | _ :: _, [] => by simp [inlineListBeq]

end

instance : DecidableEq InlineNode := fun a b =>
  decidable_of_iff (inlineBeq a b = true) (inlineBeq_iff a b)

/-- RTFNode = ParagraphNode | TextNode | RevisionNode.  The parser only ever
produces paragraphs at the top level, but the type admits inline nodes. -/
inductive RTFNode where
  | paragraph (content : List InlineNode) (formatting : ParagraphFormatting)
  | inline (node : InlineNode)
deriving DecidableEq

structure FontDescriptor where
  index : Int
  name : String
  family : Option String
deriving DecidableEq

structure RGBColor where
  r : Int
  g : Int
  b : Int
deriving DecidableEq

structure RevisionAuthor where
  index : Int
  name : String
deriving DecidableEq

structure RTFDocument where
  rtfVersion : Int
  charset : String
  defaultFont : Option Int
  fontTable : List FontDescriptor
  colorTable : List RGBColor
  stylesheetTable : List Unit
  revisionTable : List RevisionAuthor
  content : List RTFNode
  hasRevisions : Option Bool
deriving DecidableEq

/-! ## Track-changes engine (track-changes parser module) -/

/-- JSON.parse(JSON.stringify(doc)) rebuilds every node afresh; on our model
it is a structural deep copy.  We spell the rebuild out recursively, exactly
as the round trip reconstructs each object and array. -/
def cloneFormatting (f : CharacterFormatting) : CharacterFormatting :=
  { bold := f.bold, italic := f.italic, underline := f.underline,
    fontSize := f.fontSize, font := f.font,
    foregroundColor := f.foregroundColor, backgroundColor := f.backgroundColor }

mutual

def cloneInline : InlineNode → InlineNode
  | .text c f => .text c (cloneFormatting f)
  | .revision t content a ts => .revision t (cloneInlines content) a ts

def cloneInlines : List InlineNode → List InlineNode
  | [] => []
  | n :: rest => cloneInline n :: cloneInlines rest

end

def cloneParagraphFormatting (f : ParagraphFormatting) : ParagraphFormatting :=
  { alignment := f.alignment, spaceBefore := f.spaceBefore,
    spaceAfter := f.spaceAfter, leftIndent := f.leftIndent,
    rightIndent := f.rightIndent, firstLineIndent := f.firstLineIndent }

def cloneNode : RTFNode → RTFNode
  | .paragraph content f => .paragraph (cloneInlines content) (cloneParagraphFormatting f)
  | .inline n => .inline (cloneInline n)

def cloneDocument (doc : RTFDocument) : RTFDocument :=
  { rtfVersion := doc.rtfVersion, charset := doc.charset,
    defaultFont := doc.defaultFont,
    fontTable := doc.fontTable.map (fun f => ⟨f.index, f.name, f.family⟩),
    colorTable := doc.colorTable.map (fun c => ⟨c.r, c.g, c.b⟩),
    stylesheetTable := doc.stylesheetTable.map (fun u => u),
    revisionTable := doc.revisionTable.map (fun a => ⟨a.index, a.name⟩),
    content := doc.content.map cloneNode,
    hasRevisions := doc.hasRevisions }

mutual

/-- extractText on a single node (one arm of the map in the source). -/
def extractTextOne : InlineNode → String
  | .text content _ => content
  | .revision _ content _ _ => extractText content

/-- nodes.map(...).join(''): flatten nested inline text. -/
def extractText : List InlineNode → String
  | [] => ""
  | n :: rest => extractTextOne n ++ extractText rest

end

/-- The deterministic change id: change-N with N the traversal counter. -/
def mkChangeId (n : Nat) : String := "change-" ++ toString n

/-- revisionTable lookup used by getTrackChanges:
authorIndex < table.length ? table[authorIndex].name : 'Unknown'.
A negative authorIndex passes the length test, indexes to undefined and the
.name access throws (modelled as none). -/
def authorNameLookup (table : List RevisionAuthor) (authorIndex : Int) : Option String :=
  if authorIndex < (table.length : Int) then
    if 0 ≤ authorIndex then (table.get? authorIndex.toNat).map (fun a => a.name)
    else none
  else some "Unknown"

structure TrackChange where
  id : String
  type : RevisionType
  author : String
  authorIndex : Int
  text : String
  /-- new Date(timestamp * 60000), recorded as epoch milliseconds. -/
  timestamp : Option Int
  paragraphIndex : Nat
  characterOffset : Nat
deriving DecidableEq

/-- Inner forEach of getTrackChanges over one paragraph's inline nodes,
threading the change-id counter and the character offset. -/
def collectChangesInlines (table : List RevisionAuthor) (pIdx : Nat) :
    List InlineNode → Nat → Nat → Option (List TrackChange × Nat)
  | [], counter, _ => some ([], counter)
  | .text c _ :: rest, counter, offset =>
      collectChangesInlines table pIdx rest counter (offset + c.length)
  | .revision t content a ts :: rest, counter, offset => do
      let text := extractText content
      let authorIndex : Int := a.getD 0
      let authorName ← authorNameLookup table authorIndex
      let change : TrackChange :=
        { id := mkChangeId counter, type := t, author := authorName,
          authorIndex := authorIndex, text := text,
          timestamp := ts.map (fun v => v * 60000),
          paragraphIndex := pIdx, characterOffset := offset }
      let (restChanges, counter') ←
        collectChangesInlines table pIdx rest (counter + 1) (offset + text.length)
      some (change :: restChanges, counter')

/-- Outer forEach of getTrackChanges over doc.content (the forEach index
counts every node, paragraph or not). -/
def collectChangesContent (table : List RevisionAuthor) :
    List RTFNode → Nat → Nat → Option (List TrackChange × Nat)
  | [], counter, _ => some ([], counter)
  | .paragraph content _ :: rest, counter, pIdx => do
      let (cs, counter') ← collectChangesInlines table pIdx content counter 0
      let (cs', counter'') ← collectChangesContent table rest counter' (pIdx + 1)
      some (cs ++ cs', counter'')
  | .inline _ :: rest, counter, pIdx =>
      collectChangesContent table rest counter (pIdx + 1)

/-- getTrackChanges; none models the TypeError thrown when a revision's
author index is negative (table[idx] is undefined, .name throws). -/
def getTrackChanges (doc : RTFDocument) : Option (List TrackChange) :=
  (collectChangesContent doc.revisionTable doc.content 0 0).map (fun p => p.1)

structure FoundRevision where
  paragraphIndex : Nat
  inlineIndex : Nat
  revisionNode : InlineNode
deriving DecidableEq

/-- Inner loop of findRevisionById over a paragraph's inline nodes; returns
the match (if any) together with the updated change-id counter. -/
def findInlines : List InlineNode → Nat → Nat → String →
    Option (Nat × InlineNode) × Nat
  | [], _, counter, _ => (none, counter)
  | n :: rest, iIdx, counter, changeId =>
    match n with
    | .revision _ _ _ _ =>
        if mkChangeId counter = changeId then (some (iIdx, n), counter + 1)
        else findInlines rest (iIdx + 1) (counter + 1) changeId
    | _ => findInlines rest (iIdx + 1) counter changeId

def findContent : List RTFNode → Nat → Nat → String → Option FoundRevision
  | [], _, _, _ => none
  | .paragraph content _ :: rest, pIdx, counter, changeId =>
      match findInlines content 0 counter changeId with
      | (some (iIdx, node), _) => some ⟨pIdx, iIdx, node⟩
      | (none, counter') => findContent rest (pIdx + 1) counter' changeId
  | .inline _ :: rest, pIdx, counter, changeId =>
      findContent rest (pIdx + 1) counter changeId

/-- findRevisionById: re-derives change ids by traversal order. -/
def findRevisionById (doc : RTFDocument) (changeId : String) : Option FoundRevision :=
  findContent doc.content 0 0 changeId

inductive RevAction where
  | unwrap
  | remove
deriving DecidableEq

/-- Loop body of processRevisionInParagraph. -/
def processRevisionGo (inlineIndex : Nat) (action : RevAction) :
    List InlineNode → Nat → List InlineNode
  | [], _ => []
  | node :: rest, i =>
    if i = inlineIndex then
      (match action, node with
       | .unwrap, .revision _ c _ _ => c
       | .unwrap, _ => []
       | .remove, _ => []) ++ processRevisionGo inlineIndex action rest (i + 1)
    else node :: processRevisionGo inlineIndex action rest (i + 1)

/-- processRevisionInParagraph: unwrap splices the revision's children in
place of the node, remove drops it.  (The unwrap branch is only ever reached
with a revision at the index; on a non-revision the JS spread would throw,
and no node is emitted.) -/
def processRevisionInParagraph (content : List InlineNode) (inlineIndex : Nat)
    (action : RevAction) : List InlineNode :=
  processRevisionGo inlineIndex action content 0

def paragraphHasRevision : List InlineNode → Bool
  | [] => false
  | .revision _ _ _ _ :: _ => true
  | _ :: rest => paragraphHasRevision rest

/-- The scan performed by updateDocumentMetadata: does any paragraph contain
a revision among its direct children? -/
def hasAnyRevision : List RTFNode → Bool
  | [] => false
  | .paragraph content _ :: rest => paragraphHasRevision content || hasAnyRevision rest
  | .inline _ :: rest => hasAnyRevision rest

/-- revisionNode.revisionType === 'deletion' ? 'remove' : 'unwrap' -/
def acceptActionFor (content : List InlineNode) (inlineIndex : Nat) : RevAction :=
  match content.get? inlineIndex with
  | some (.revision .deletion _ _ _) => .remove
  | _ => .unwrap

/-- revisionNode.revisionType === 'insertion' ? 'remove' : 'unwrap' -/
def rejectActionFor (content : List InlineNode) (inlineIndex : Nat) : RevAction :=
  match content.get? inlineIndex with
  | some (.revision .insertion _ _ _) => .remove
  | _ => .unwrap

/-- acceptChange: locate by re-derived id, clone, then splice (insertion and
formatting unwrap, deletion is removed); null (none) when the id is stale. -/
def acceptChange (doc : RTFDocument) (changeId : String) : Option RTFDocument :=
  match findRevisionById doc changeId with
  | none => none
  | some loc =>
    let newDoc := cloneDocument doc
    match newDoc.content.get? loc.paragraphIndex with
    | some (.paragraph content fmt) =>
      let action := acceptActionFor content loc.inlineIndex
      let newContent := processRevisionInParagraph content loc.inlineIndex action
      let doc2 := { newDoc with
        content := newDoc.content.set loc.paragraphIndex (.paragraph newContent fmt) }
      some { doc2 with hasRevisions := some (hasAnyRevision doc2.content) }
    | _ => some { newDoc with hasRevisions := some (hasAnyRevision newDoc.content) }

/-- rejectChange: the inverse action choice (insertion removed, deletion and
formatting unwrapped). -/
def rejectChange (doc : RTFDocument) (changeId : String) : Option RTFDocument :=
  match findRevisionById doc changeId with
  | none => none
  | some loc =>
    let newDoc := cloneDocument doc
    match newDoc.content.get? loc.paragraphIndex with
    | some (.paragraph content fmt) =>
      let action := rejectActionFor content loc.inlineIndex
      let newContent := processRevisionInParagraph content loc.inlineIndex action
      let doc2 := { newDoc with
        content := newDoc.content.set loc.paragraphIndex (.paragraph newContent fmt) }
      some { doc2 with hasRevisions := some (hasAnyRevision doc2.content) }
    | _ => some { newDoc with hasRevisions := some (hasAnyRevision newDoc.content) }

/-- One pass of acceptAllChanges over one paragraph's children: deletions are
dropped, every other revision is unwrapped, other nodes kept. -/
def acceptAllRevisions : List InlineNode → List InlineNode
  | [] => []
  | .revision .deletion _ _ _ :: rest => acceptAllRevisions rest
  | .revision _ c _ _ :: rest => c ++ acceptAllRevisions rest
  | n :: rest => n :: acceptAllRevisions rest

/-- The per-node body of the acceptAllChanges loop (only paragraphs are
rewritten). -/
def acceptAllNode : RTFNode → RTFNode
  | .paragraph c f => .paragraph (acceptAllRevisions c) f
  | other => other

def acceptAllChanges (doc : RTFDocument) : RTFDocument :=
  let newDoc := cloneDocument doc
  { newDoc with
    content := newDoc.content.map acceptAllNode,
    hasRevisions := some false }

/-- One pass of rejectAllChanges: insertions dropped, every other revision
unwrapped. -/
def rejectAllRevisions : List InlineNode → List InlineNode
  | [] => []
  | .revision .insertion _ _ _ :: rest => rejectAllRevisions rest
  | .revision _ c _ _ :: rest => c ++ rejectAllRevisions rest
  | n :: rest => n :: rejectAllRevisions rest

/-- The per-node body of the rejectAllChanges loop. -/
def rejectAllNode : RTFNode → RTFNode
  | .paragraph c f => .paragraph (rejectAllRevisions c) f
  | other => other

def rejectAllChanges (doc : RTFDocument) : RTFDocument :=
  let newDoc := cloneDocument doc
  { newDoc with
    content := newDoc.content.map rejectAllNode,
    hasRevisions := some false }

/-! ## Tokenizer (src/parser/tokenizer.ts, hardened version) -/

def MAX_DOCUMENT_SIZE : Nat := 50 * 1024 * 1024
def MAX_TEXT_CHUNK_SIZE : Nat := 1024 * 1024
def MAX_CONTROL_WORD_LENGTH : Nat := 32
def MAX_PARAM_DIGITS : Nat := 10

/-- Tokens, without the source-position fields (pos, line, column), which no
parser rule and no claim reads. -/
inductive Token where
  | groupStart
  | groupEnd
  | controlWord (name : String) (param : Option Int)
  | controlSymbol (name : String) (value : String)
  | text (value : String)
deriving DecidableEq

def isAsciiAlpha (c : Char) : Bool :=
  ('a' ≤ c && c ≤ 'z') || ('A' ≤ c && c ≤ 'Z')

def isAsciiDigit (c : Char) : Bool := '0' ≤ c && c ≤ '9'

def isHexDigit (c : Char) : Bool :=
  isAsciiDigit c || ('a' ≤ c && c ≤ 'f') || ('A' ≤ c && c ≤ 'F')

/-- The apostrophe character that introduces a hex escape. -/
def apostropheChar : Char := Char.ofNat 39

/-- String.fromCharCode applies ToUint16 to its argument; Char.ofNat maps
the (never produced by the claims) lone surrogates to NUL. -/
def fromCharCode (n : Int) : Char := Char.ofNat (n % 65536).toNat

/-- Name loop of scanControlWord: collect ASCII letters, silently stopping
at MAX_CONTROL_WORD_LENGTH ("break", the letter is left unconsumed). -/
def scanNameChars : List Char → Nat → List Char × List Char
  | [], _ => ([], [])
  | c :: rest, len =>
    if isAsciiAlpha c then
      if MAX_CONTROL_WORD_LENGTH ≤ len then ([], c :: rest)
      else
        let (nm, r) := scanNameChars rest (len + 1)
        (c :: nm, r)
    else ([], c :: rest)

/-- Digit loop of scanControlWord; len counts paramChars so far (the sign
included), and the loop breaks once MAX_PARAM_DIGITS chars are collected. -/
def scanDigitChars : List Char → Nat → List Char × List Char
  | [], _ => ([], [])
  | c :: rest, len =>
    if isAsciiDigit c then
      if MAX_PARAM_DIGITS ≤ len then ([], c :: rest)
      else
        let (ds, r) := scanDigitChars rest (len + 1)
        (c :: ds, r)
    else ([], c :: rest)

def digitVal (c : Char) : Nat := c.toNat - 48

/-- parseInt(digits, 10) for a non-empty all-digit string. -/
def natFromDigits (ds : List Char) : Nat :=
  ds.foldl (fun a c => 10 * a + digitVal c) 0

/-- Number.isSafeInteger. -/
def isSafeInteger (v : Int) : Bool := v.natAbs ≤ 2 ^ 53 - 1

/-- scanControlWord, entered just after the backslash: name, optional signed
parameter (null when empty, the bare sign, or unsafe), and one delimiting
space consumed. -/
def scanControlWord (cs : List Char) : String × Option Int × List Char :=
  let (nameChars, rest1) := scanNameChars cs 0
  let name := String.mk nameChars
  let (param, rest2) :=
    match rest1 with
    | '-' :: r =>
        let (ds, r') := scanDigitChars r 1
        if ds.isEmpty then ((none : Option Int), r')
        else
          let v : Int := -(natFromDigits ds : Int)
          (if isSafeInteger v then some v else none, r')
    | c :: r =>
        if isAsciiDigit c then
          let (ds, r') := scanDigitChars (c :: r) 0
          let v : Int := (natFromDigits ds : Int)
          (if isSafeInteger v then some v else none, r')
        else ((none : Option Int), c :: r)
    | [] => ((none : Option Int), [])
  let rest3 :=
    match rest2 with
    | ' ' :: r => r
    | r => r
  (name, param, rest3)

/-- Hex-digit loop of scanHexEscape (at most two digits). -/
def scanHexChars : List Char → Nat → List Char × List Char
  | [], _ => ([], [])
  | c :: rest, taken =>
    if taken < 2 then
      if isHexDigit c then
        let (hs, r) := scanHexChars rest (taken + 1)
        (c :: hs, r)
      else ([], c :: rest)
    else ([], c :: rest)

def hexDigitVal (c : Char) : Nat :=
  if isAsciiDigit c then c.toNat - 48
  else if 'a' ≤ c && c ≤ 'f' then c.toNat - 87
  else if 'A' ≤ c && c ≤ 'F' then c.toNat - 55
  else 0

def hexFromDigits (ds : List Char) : Nat :=
  ds.foldl (fun a c => 16 * a + hexDigitVal c) 0

/-- scanHexEscape: up to two hex digits decoded directly to a character
code.  With no digits, parseInt gives NaN and String.fromCharCode(NaN) is
the NUL character. -/
def scanHexEscape (cs : List Char) : Token × List Char :=
  let (hexChars, rest) := scanHexChars cs 0
  let value :=
    if hexChars.isEmpty then String.singleton (Char.ofNat 0)
    else String.singleton (Char.ofNat (hexFromDigits hexChars))
  (Token.text value, rest)

/-- The symbolMap of scanControlSymbol. -/
def symbolValue (c : Char) : String :=
  if c = '~' then "\u00A0"
  else if c = '-' then "\u00AD"
  else if c = '_' then "\u2011"
  else if c = '\\' then "\\"
  else if c = '{' then "\x7b"
  else if c = '}' then "\x7d"
  else String.singleton c

/-- scanControlSymbol: literal escapes come back as text, the named symbols
as controlSymbol tokens. -/
def scanControlSymbol (c : Char) : Token :=
  if c = '\\' || c = '{' || c = '}' then Token.text (symbolValue c)
  else Token.controlSymbol (String.singleton c) (symbolValue c)

def isTextStop (c : Char) : Bool := c = '\\' || c = '{' || c = '}'

def textChunkError : String :=
  "Text chunk exceeds maximum size (" ++ toString MAX_TEXT_CHUNK_SIZE ++
    " bytes). This may indicate a malicious document."

/-- Plain-text accumulation loop, bounded by MAX_TEXT_CHUNK_SIZE. -/
def scanTextChars : List Char → Nat → Except String (List Char × List Char)
  | [], _ => .ok ([], [])
  | c :: rest, len =>
    if isTextStop c then .ok ([], c :: rest)
    else if MAX_TEXT_CHUNK_SIZE ≤ len then .error textChunkError
    else do
      let (ts, r) ← scanTextChars rest (len + 1)
      .ok (c :: ts, r)

/-- Main tokenize loop.  The fuel argument only makes the recursion
structural; each iteration consumes at least one character, so the wrapper's
fuel (length + 1) can never run out. -/
def tokenizeLoop : Nat → List Char → Except String (List Token)
  | 0, _ => .error "tokenizer fuel exhausted"
  | _, [] => .ok []
  | fuel + 1, c :: cs =>
    if c = '\\' then
      match cs with
      | [] => tokenizeLoop fuel []
      | c2 :: cs2 =>
        if isAsciiAlpha c2 then
          let (name, param, rest) := scanControlWord cs
          if name = "u" then
            match param with
            | some n =>
                let charCode := if n < 0 then 65536 + n else n
                do
                  let toks ← tokenizeLoop fuel rest.tail
                  .ok (Token.text (String.singleton (fromCharCode charCode)) :: toks)
            | none => do
                let toks ← tokenizeLoop fuel rest
                .ok (Token.controlWord name none :: toks)
          else do
            let toks ← tokenizeLoop fuel rest
            .ok (Token.controlWord name param :: toks)
        else if c2 = apostropheChar then
          let (tok, rest) := scanHexEscape cs2
          do
            let toks ← tokenizeLoop fuel rest
            .ok (tok :: toks)
        else if c2 = '~' || c2 = '-' || c2 = '_' || c2 = '\\' || c2 = '{' || c2 = '}' then
          do
            let toks ← tokenizeLoop fuel cs2
            .ok (scanControlSymbol c2 :: toks)
        else
          tokenizeLoop fuel cs
    else if c = '{' then do
      let toks ← tokenizeLoop fuel cs
      .ok (Token.groupStart :: toks)
    else if c = '}' then do
      let toks ← tokenizeLoop fuel cs
      .ok (Token.groupEnd :: toks)
    else do
      let (ts, rest) ← scanTextChars (c :: cs) 0
      let toks ← tokenizeLoop fuel rest
      .ok (if ts.isEmpty then toks else Token.text (String.mk ts) :: toks)

def docSizeError (n : Nat) : String :=
  "Document size (" ++ toString n ++ " bytes) exceeds maximum allowed size (" ++
    toString MAX_DOCUMENT_SIZE ++ " bytes). This may indicate a malicious document."

/-- tokenize: rejects oversized input up front, then runs the single forward
scan. -/
def tokenize (rtf : String) : Except String (List Token) :=
  if MAX_DOCUMENT_SIZE < rtf.data.length then .error (docSizeError rtf.data.length)
  else tokenizeLoop (rtf.data.length + 1) rtf.data

/-! ## Parser (src/parser/parser.ts, full version with revisions) -/

/-- FormattingState of the Parser class. -/
structure FormattingState where
  bold : Option Bool := none
  italic : Option Bool := none
  underline : Option Bool := none
  fontSize : Option Int := none
  font : Option Int := none
  foregroundColor : Option Int := none
  backgroundColor : Option Int := none
deriving DecidableEq

/-- ParagraphState of the Parser class. -/
structure ParagraphState where
  alignment : Option Alignment := none
  spaceBefore : Option Int := none
  spaceAfter : Option Int := none
  leftIndent : Option Int := none
  rightIndent : Option Int := none
  firstLineIndent : Option Int := none
deriving DecidableEq

/-- The stack is never empty (it starts as a singleton and pop keeps one
element); the top is the head. -/
def pushFormatting (stack : List FormattingState) : List FormattingState :=
  stack.headD {} :: stack

def popFormatting : List FormattingState → List FormattingState
  | _ :: b :: rest => b :: rest
  | s => s

def tokenTypeName : Token → String
  | .groupStart => "groupStart"
  | .groupEnd => "groupEnd"
  | .controlWord _ _ => "controlWord"
  | .controlSymbol _ _ => "controlSymbol"
  | .text _ => "text"

/-- The message thrown by Parser.expect. -/
def expectedButGot (expected : String) (ts : List Token) : String :=
  "Expected " ++ expected ++ " but got " ++
    (match ts with
     | [] => "EOF"
     | t :: _ => tokenTypeName t)

def isHeaderControlWord (name : String) : Bool :=
  name ∈ ["rtf", "ansi", "mac", "pc", "pca", "deff"]

def isFormattingControlWord (name : String) : Bool :=
  name ∈ ["b", "i", "ul", "fs", "f", "cf", "cb", "strike", "scaps", "sub", "super"]

def isParagraphControlWord (name : String) : Bool :=
  name ∈ ["qc", "qr", "ql", "qj", "sb", "sa", "li", "ri", "fi"]

/-- param === null || param !== 0, the boolean given to bold/italic/underline. -/
def controlBoolValue (param : Option Int) : Bool :=
  match param with
  | none => true
  | some v => v ≠ 0

/-- The switch of parseFormattingControlWord, applied to the stack top
(strike, scaps, sub and super are classified as formatting but have no
case in the switch). -/
def applyFormattingControlWord (st : FormattingState) (name : String)
    (param : Option Int) : FormattingState :=
  if name = "b" then { st with bold := some (controlBoolValue param) }
  else if name = "i" then { st with italic := some (controlBoolValue param) }
  else if name = "ul" then { st with underline := some (controlBoolValue param) }
  else if name = "fs" then { st with fontSize := param }
  else if name = "f" then { st with font := param }
  else if name = "cf" then { st with foregroundColor := param }
  else if name = "cb" then { st with backgroundColor := param }
  else st

def updateTopFormatting (stack : List FormattingState) (name : String)
    (param : Option Int) : List FormattingState :=
  match stack with
  | top :: rest => applyFormattingControlWord top name param :: rest
  | [] => []

/-- The switch of parseHeaderControlWord. -/
def applyHeaderControlWord (doc : RTFDocument) (name : String)
    (param : Option Int) : RTFDocument :=
  if name = "rtf" then
    match param with
    | some v => { doc with rtfVersion := v }
    | none => doc
  else if name = "ansi" || name = "mac" || name = "pc" || name = "pca" then
    { doc with charset := name }
  else if name = "deff" then
    match param with
    | some v => { doc with defaultFont := some v }
    | none => doc
  else doc

/-- The switch of parseParagraphControlWord. -/
def applyParagraphControlWord (ps : ParagraphState) (name : String)
    (param : Option Int) : ParagraphState :=
  if name = "qc" then { ps with alignment := some .center }
  else if name = "qr" then { ps with alignment := some .right }
  else if name = "ql" then { ps with alignment := some .left }
  else if name = "qj" then { ps with alignment := some .justify }
  else if name = "sb" then { ps with spaceBefore := param }
  else if name = "sa" then { ps with spaceAfter := param }
  else if name = "li" then { ps with leftIndent := param }
  else if name = "ri" then { ps with rightIndent := param }
  else if name = "fi" then { ps with firstLineIndent := param }
  else ps

/-- createTextNode: snapshot of the current (top) formatting state; the
boolean flags are copied only when truthy, the value fields whenever
defined. -/
def createTextNode (st : FormattingState) (text : String) : InlineNode :=
  .text text
    { bold := if st.bold = some true then some true else none,
      italic := if st.italic = some true then some true else none,
      underline := if st.underline = some true then some true else none,
      fontSize := st.fontSize, font := st.font,
      foregroundColor := st.foregroundColor,
      backgroundColor := st.backgroundColor }

/-- createParagraph: snapshot of the paragraph state. -/
def createParagraph (ps : ParagraphState) (content : List InlineNode) : RTFNode :=
  .paragraph content
    { alignment := ps.alignment, spaceBefore := ps.spaceBefore,
      spaceAfter := ps.spaceAfter, leftIndent := ps.leftIndent,
      rightIndent := ps.rightIndent, firstLineIndent := ps.firstLineIndent }

def dropLeadingWhitespace : List Char → List Char
  | [] => []
  | c :: rest => if c.isWhitespace then dropLeadingWhitespace rest else c :: rest

/-- Both-ends trim on the character list (kernel-computable form of
String.trim). -/
def trimChars (cs : List Char) : List Char :=
  (dropLeadingWhitespace (dropLeadingWhitespace cs).reverse).reverse

/-- Drop a single trailing semicolon, the replace(/;$/, '') step. -/
def stripTrailingSemi (cs : List Char) : List Char :=
  match cs.reverse with
  | ';' :: rest => rest.reverse
  | _ => cs

/-- name.replace(/;$/, '').trim() -/
def cleanupTableName (s : String) : String :=
  String.mk (trimChars (stripTrailingSemi s.data))

/-- skipGroup: consume tokens until the depth counter returns to zero. -/
def skipGroupLoop (depth : Nat) : List Token → List Token
  | [] => []
  | t :: rest =>
    if depth = 0 then t :: rest
    else
      match t with
      | .groupStart => skipGroupLoop (depth + 1) rest
      | .groupEnd => skipGroupLoop (depth - 1) rest
      | _ => skipGroupLoop depth rest

def skipGroup (ts : List Token) : List Token := skipGroupLoop 1 ts

structure FontDescAcc where
  fontIndex : Option Int
  fontFamily : Option String
  fontName : String
deriving DecidableEq

/-- Token loop of parseFontDescriptor (one token consumed per iteration). -/
def parseFontDescriptorLoop : List Token → FontDescAcc → FontDescAcc × List Token
  | [], acc => (acc, [])
  | .groupEnd :: rest, acc => (acc, Token.groupEnd :: rest)
  | t :: rest, acc =>
    parseFontDescriptorLoop rest
      (match t with
       | .controlWord name param =>
           if name = "f" && param.isSome then { acc with fontIndex := param }
           else
             -- name.startsWith('f') && name.length > 1, family = name.substring(1)
             (match name.data with
              | 'f' :: c2 :: restName => { acc with fontFamily := some (String.mk (c2 :: restName)) }
              | _ => acc)
       | .text v => { acc with fontName := acc.fontName ++ v }
       | _ => acc)

/-- parseFontDescriptor: expect a group, accumulate, expect the close; the
descriptor is kept only when it has an index and a non-empty name. -/
def parseFontDescriptor (ts : List Token) :
    Except String (Option FontDescriptor × List Token) :=
  match ts with
  | .groupStart :: rest =>
    let (acc, rest1) := parseFontDescriptorLoop rest ⟨none, none, ""⟩
    match rest1 with
    | .groupEnd :: rest2 =>
      let fontName := cleanupTableName acc.fontName
      let fd :=
        match acc.fontIndex with
        | some idx => if fontName ≠ "" then some (⟨idx, fontName, acc.fontFamily⟩ : FontDescriptor) else none
        | none => none
      .ok (fd, rest2)
    | _ => .error (expectedButGot "groupEnd" rest1)
  | _ => .error (expectedButGot "groupStart" ts)

/-- Outer loop of parseFontTable; fuel because a whole descriptor is
consumed per iteration. -/
def parseFontTableLoop : Nat → List Token → List FontDescriptor →
    Except String (List FontDescriptor × List Token)
  | 0, _, _ => .error "parser fuel exhausted"
  | _, [], table => .ok (table, [])
  | _, .groupEnd :: rest, table => .ok (table, Token.groupEnd :: rest)
  | fuel + 1, .groupStart :: rest, table => do
      let (fd, rest1) ← parseFontDescriptor (Token.groupStart :: rest)
      parseFontTableLoop fuel rest1
        (match fd with
         | some f => table ++ [f]
         | none => table)
  | fuel + 1, _ :: rest, table => parseFontTableLoop fuel rest table

/-- parseFontTable, entered with the token list at the fonttbl control word
(which it skips). -/
def parseFontTable (ts : List Token) (doc : RTFDocument) :
    Except String (RTFDocument × List Token) :=
  match ts with
  | _ :: rest => do
    let (table, rest1) ← parseFontTableLoop (rest.length + 1) rest doc.fontTable
    match rest1 with
    | .groupEnd :: rest2 => .ok ({ doc with fontTable := table }, rest2)
    | _ => .error (expectedButGot "groupEnd" rest1)
  | [] => .error (expectedButGot "groupEnd" [])

structure PartialColor where
  r : Option Int := none
  g : Option Int := none
  b : Option Int := none
deriving DecidableEq

/-- Token loop of parseColorTable: red/green/blue parameters are stored
verbatim, a ";" text token closes an entry (kept only when all three
components were seen). -/
def parseColorTableLoop : List Token → List RGBColor → PartialColor →
    List RGBColor × List Token
  | [], table, _ => (table, [])
  | .groupEnd :: rest, table, _ => (table, Token.groupEnd :: rest)
  | .controlWord name param :: rest, table, cur =>
      if name = "red" && param.isSome then parseColorTableLoop rest table { cur with r := param }
      else if name = "green" && param.isSome then parseColorTableLoop rest table { cur with g := param }
      else if name = "blue" && param.isSome then parseColorTableLoop rest table { cur with b := param }
      else parseColorTableLoop rest table cur
  | .text v :: rest, table, cur =>
      if v = ";" then
        match cur.r, cur.g, cur.b with
        | some r, some g, some b => parseColorTableLoop rest (table ++ [⟨r, g, b⟩]) {}
        | _, _, _ => parseColorTableLoop rest table {}
      else parseColorTableLoop rest table cur
  | _ :: rest, table, cur => parseColorTableLoop rest table cur

/-- parseColorTable, entered at the colortbl control word; index 0 is the
reserved auto colour. -/
def parseColorTable (ts : List Token) (doc : RTFDocument) :
    Except String (RTFDocument × List Token) :=
  match ts with
  | _ :: rest =>
    let (table, rest1) := parseColorTableLoop rest (doc.colorTable ++ [⟨0, 0, 0⟩]) {}
    match rest1 with
    | .groupEnd :: rest2 => .ok ({ doc with colorTable := table }, rest2)
    | _ => .error (expectedButGot "groupEnd" rest1)
  | [] => .error (expectedButGot "groupEnd" [])

/-- Author-name accumulation inside one revision-table group. -/
def parseRevAuthorLoop : List Token → String → String × List Token
  | [], acc => (acc, [])
  | .groupEnd :: rest, acc => (acc, Token.groupEnd :: rest)
  | .text v :: rest, acc => parseRevAuthorLoop rest (acc ++ v)
  | _ :: rest, acc => parseRevAuthorLoop rest acc

/-- Outer loop of parseRevisionTable; the running author index is assigned
only to entries that survive cleanup. -/
def parseRevisionTableLoop : Nat → List Token → List RevisionAuthor → Nat →
    Except String (List RevisionAuthor × List Token)
  | 0, _, _, _ => .error "parser fuel exhausted"
  | _, [], table, _ => .ok (table, [])
  | _, .groupEnd :: rest, table, _ => .ok (table, Token.groupEnd :: rest)
  | fuel + 1, .groupStart :: rest, table, authorIndex =>
      let (nameAcc, rest1) := parseRevAuthorLoop rest ""
      (match rest1 with
       | .groupEnd :: rest2 =>
         let authorName := cleanupTableName nameAcc
         if authorName ≠ "" then
           parseRevisionTableLoop fuel rest2
             (table ++ [⟨(authorIndex : Int), authorName⟩]) (authorIndex + 1)
         else parseRevisionTableLoop fuel rest2 table authorIndex
       | _ => .error (expectedButGot "groupEnd" rest1))
  | fuel + 1, _ :: rest, table, idx => parseRevisionTableLoop fuel rest table idx

/-- parseRevisionTable, entered at the revtbl control word (the star was
already consumed by the caller). -/
def parseRevisionTable (ts : List Token) (doc : RTFDocument) :
    Except String (RTFDocument × List Token) :=
  match ts with
  | _ :: rest => do
    let (table, rest1) ← parseRevisionTableLoop (rest.length + 1) rest doc.revisionTable 0
    match rest1 with
    | .groupEnd :: rest2 => .ok ({ doc with revisionTable := table }, rest2)
    | _ => .error (expectedButGot "groupEnd" rest1)
  | [] => .error (expectedButGot "groupEnd" [])

/-- if (!this.isEOF() && this.match('groupEnd')) this.advance() -/
def consumeOptionalGroupEnd : List Token → List Token
  | .groupEnd :: r => r
  | r => r

/-- Loop of parseContentGroup: formatting words update the top state, nested
groups push/recurse/pop and splice, text becomes nodes, everything else is
skipped.  Stops (without consuming) at groupEnd or EOF. -/
def parseContentGroupLoop : Nat → List Token → List FormattingState → List InlineNode →
    Except String (List InlineNode × List FormattingState × List Token)
  | 0, _, _, _ => .error "parser fuel exhausted"
  | _, [], stack, acc => .ok (acc, stack, [])
  | _, .groupEnd :: rest, stack, acc => .ok (acc, stack, Token.groupEnd :: rest)
  | fuel + 1, .controlWord name param :: rest, stack, acc =>
      if isFormattingControlWord name then
        parseContentGroupLoop fuel rest (updateTopFormatting stack name param) acc
      else parseContentGroupLoop fuel rest stack acc
  | fuel + 1, .groupStart :: rest, stack, acc => do
      let (inner, stack1, rest1) ← parseContentGroupLoop fuel rest (pushFormatting stack) []
      let stack2 := popFormatting stack1
      parseContentGroupLoop fuel (consumeOptionalGroupEnd rest1) stack2 (acc ++ inner)
  | fuel + 1, .text v :: rest, stack, acc =>
      parseContentGroupLoop fuel rest stack (acc ++ [createTextNode (stack.headD {}) v])
  | fuel + 1, _ :: rest, stack, acc => parseContentGroupLoop fuel rest stack acc

/-- Loop of parseRevisionGroup: revauth/revdttm metadata, formatting words,
nested groups (via parseContentGroup) and text; stops at groupEnd or EOF. -/
def parseRevisionGroupLoop : Nat → List Token → List FormattingState →
    Option Int → Option Int → List InlineNode →
    Except String ((Option Int × Option Int × List InlineNode) × List FormattingState × List Token)
  | 0, _, _, _, _, _ => .error "parser fuel exhausted"
  | _, [], stack, a, t, acc => .ok ((a, t, acc), stack, [])
  | _, .groupEnd :: rest, stack, a, t, acc => .ok ((a, t, acc), stack, Token.groupEnd :: rest)
  | fuel + 1, .controlWord name param :: rest, stack, a, t, acc =>
      if name = "revauth" && param.isSome then
        parseRevisionGroupLoop fuel rest stack param t acc
      else if name = "revdttm" && param.isSome then
        parseRevisionGroupLoop fuel rest stack a param acc
      else if isFormattingControlWord name then
        parseRevisionGroupLoop fuel rest (updateTopFormatting stack name param) a t acc
      else parseRevisionGroupLoop fuel rest stack a t acc
  | fuel + 1, .groupStart :: rest, stack, a, t, acc => do
      let (inner, stack1, rest1) ← parseContentGroupLoop (rest.length + 1) rest (pushFormatting stack) []
      let stack2 := popFormatting stack1
      parseRevisionGroupLoop fuel (consumeOptionalGroupEnd rest1) stack2 a t (acc ++ inner)
  | fuel + 1, .text v :: rest, stack, a, t, acc =>
      parseRevisionGroupLoop fuel rest stack a t (acc ++ [createTextNode (stack.headD {}) v])
  | fuel + 1, _ :: rest, stack, a, t, acc => parseRevisionGroupLoop fuel rest stack a t acc

/-- parseRevisionGroup, entered at the revised/deleted control word (which
it skips); builds the RevisionNode. -/
def parseRevisionGroup (revisionName : String) (ts : List Token)
    (stack : List FormattingState) :
    Except String (InlineNode × List FormattingState × List Token) :=
  match ts with
  | _ :: rest => do
    let ((a, t, revContent), stack1, rest1) ←
      parseRevisionGroupLoop (rest.length + 1) rest stack none none []
    let node : InlineNode :=
      .revision (if revisionName = "revised" then .insertion else .deletion) revContent a t
    .ok (node, stack1, rest1)
  | [] => do
    let ((a, t, revContent), stack1, rest1) ←
      parseRevisionGroupLoop 1 [] stack none none []
    let node : InlineNode :=
      .revision (if revisionName = "revised" then .insertion else .deletion) revContent a t
    .ok (node, stack1, rest1)

/-- A generic formatting group inside parseDocumentContent: push state,
parse the group body, pop state, restore the paragraph state, consume the
closing brace. -/
def parseRegularGroup (rest : List Token) (stack : List FormattingState) :
    Except String (List InlineNode × List FormattingState × List Token) := do
  let (inner, stack1, rest1) ← parseContentGroupLoop (rest.length + 1) rest (pushFormatting stack) []
  let stack2 := popFormatting stack1
  .ok (inner, stack2, consumeOptionalGroupEnd rest1)

/-- End-of-loop flush of parseDocumentContent: trailing inline content (when
non-empty) becomes a final paragraph. -/
def flushFinal (doc : RTFDocument) (ps : ParagraphState) (cur : List InlineNode) : RTFDocument :=
  if cur.isEmpty then doc
  else { doc with content := doc.content ++ [createParagraph ps cur] }

/-- The main loop of parseDocumentContent.  One fuel unit per iteration;
every iteration consumes at least one token. -/
def parseDocumentContentLoop : Nat → List Token → List FormattingState → ParagraphState →
    RTFDocument → List InlineNode → Except String (RTFDocument × List Token)
  | 0, _, _, _, _, _ => .error "parser fuel exhausted"
  | _, [], _, ps, doc, cur => .ok (flushFinal doc ps cur, [])
  | _, .groupEnd :: rest, _, ps, doc, cur => .ok (flushFinal doc ps cur, Token.groupEnd :: rest)
  | fuel + 1, .controlWord name param :: rest, stack, ps, doc, cur =>
      if name = "par" || name = "line" then
        if cur.length > 0 || name = "par" then
          parseDocumentContentLoop fuel rest stack {}
            { doc with content := doc.content ++ [createParagraph ps cur] } []
        else parseDocumentContentLoop fuel rest stack ps doc cur
      else if isHeaderControlWord name then
        parseDocumentContentLoop fuel rest stack ps (applyHeaderControlWord doc name param) cur
      else if isFormattingControlWord name then
        parseDocumentContentLoop fuel rest (updateTopFormatting stack name param) ps doc cur
      else if isParagraphControlWord name then
        parseDocumentContentLoop fuel rest stack (applyParagraphControlWord ps name param) doc cur
      else parseDocumentContentLoop fuel rest stack ps doc cur
  | fuel + 1, .groupStart :: rest, stack, ps, doc, cur =>
      (match rest with
       | .text "*" :: rest1 =>
         (match rest1 with
          | .controlWord "revtbl" _ :: _ => do
              let (doc1, rest2) ← parseRevisionTable rest1 doc
              parseDocumentContentLoop fuel rest2 stack ps doc1 cur
          | _ => parseDocumentContentLoop fuel (skipGroup rest1) stack ps doc cur)
       | .controlWord cname _ :: _ =>
         if cname = "fonttbl" then do
           let (doc1, rest2) ← parseFontTable rest doc
           parseDocumentContentLoop fuel rest2 stack ps doc1 cur
         else if cname = "colortbl" then do
           let (doc1, rest2) ← parseColorTable rest doc
           parseDocumentContentLoop fuel rest2 stack ps doc1 cur
         else if cname = "revised" || cname = "deleted" then do
           let (node, stack1, rest2) ← parseRevisionGroup cname rest stack
           parseDocumentContentLoop fuel (consumeOptionalGroupEnd rest2) stack1 ps
             { doc with hasRevisions := some true } (cur ++ [node])
         else do
           let (inner, stack1, rest2) ← parseRegularGroup rest stack
           parseDocumentContentLoop fuel rest2 stack1 ps doc (cur ++ inner)
       | _ => do
           let (inner, stack1, rest2) ← parseRegularGroup rest stack
           parseDocumentContentLoop fuel rest2 stack1 ps doc (cur ++ inner))
  | fuel + 1, .text v :: rest, stack, ps, doc, cur =>
      parseDocumentContentLoop fuel rest stack ps doc (cur ++ [createTextNode (stack.headD {}) v])
  | fuel + 1, _ :: rest, stack, ps, doc, cur =>
      parseDocumentContentLoop fuel rest stack ps doc cur

/-- The document produced by the parseDocument constructor block. -/
def emptyDocument : RTFDocument :=
  { rtfVersion := 1, charset := "ansi", defaultFont := none,
    fontTable := [], colorTable := [], stylesheetTable := [],
    revisionTable := [], content := [], hasRevisions := none }

/-- parseDocument: expect the opening brace, parse the content, expect the
closing brace unless at EOF. -/
def parseDocument (tokens : List Token) : Except String RTFDocument :=
  match tokens with
  | .groupStart :: rest => do
    let (doc, rest1) ←
      parseDocumentContentLoop (rest.length + 1) rest [{}] {} emptyDocument []
    match rest1 with
    | [] => .ok doc
    | .groupEnd :: _ => .ok doc
    | t :: _ => .error (expectedButGot "groupEnd" (t :: []))
  | ts => .error (expectedButGot "groupStart" ts)

/-- parseRTF: tokenize then parse. -/
def parseRTF (rtf : String) : Except String RTFDocument := do
  let tokens ← tokenize rtf
  parseDocument tokens

/-! ## Derived notions the claims quantify over -/

/-- The revision nodes among a list of direct children, in order. -/
def revisionChildren : List InlineNode → List InlineNode
  | [] => []
  | .revision t c a ts :: rest => .revision t c a ts :: revisionChildren rest
  | _ :: rest => revisionChildren rest

/-- All directly addressable revisions of a document: direct revision
children of paragraphs, in traversal order. -/
def topRevisions : List RTFNode → List InlineNode
  | [] => []
  | .paragraph content _ :: rest => revisionChildren content ++ topRevisions rest
  | .inline _ :: rest => topRevisions rest

def countTopRevisions (doc : RTFDocument) : Nat := (topRevisions doc.content).length

def InlineNode.isRevision : InlineNode → Bool
  | .revision _ _ _ _ => true
  | _ => false

/-- A node whose own children contain no revision node. -/
def revisionContentFree : InlineNode → Bool
  | .revision _ c _ _ => !paragraphHasRevision c
  | _ => true

/-- No RevisionNode sits directly inside another RevisionNode's content
(among the addressable revisions). -/
def noNestedRevisions (doc : RTFDocument) : Bool :=
  (topRevisions doc.content).all revisionContentFree

/-- Whether extracting this node's author record succeeds (true for
non-revisions). -/
def authorOk (table : List RevisionAuthor) : InlineNode → Bool
  | .revision _ _ a _ => (authorNameLookup table (a.getD 0)).isSome
  | _ => true

/-! ## Lemmas: cloning is the identity -/

theorem cloneFormatting_eq (f : CharacterFormatting) : cloneFormatting f = f := rfl

mutual

theorem cloneInline_eq : ∀ n : InlineNode, cloneInline n = n
  | .text c f => by simp [cloneInline, cloneFormatting_eq]
  | .revision t content a ts => by simp [cloneInline, cloneInlines_eq content]

theorem cloneInlines_eq : ∀ ns : List InlineNode, cloneInlines ns = ns
  | [] => rfl
  | n :: rest => by simp [cloneInlines, cloneInline_eq n, cloneInlines_eq rest]

end

theorem cloneParagraphFormatting_eq (f : ParagraphFormatting) :
    cloneParagraphFormatting f = f := rfl

theorem cloneNode_eq (n : RTFNode) : cloneNode n = n := by
  cases n with
  | paragraph content f => simp [cloneNode, cloneInlines_eq, cloneParagraphFormatting_eq]
  | inline m => simp [cloneNode, cloneInline_eq]

theorem cloneDocument_eq (d : RTFDocument) : cloneDocument d = d := by
  have h1 : ∀ l : List FontDescriptor, l.map (fun f => (⟨f.index, f.name, f.family⟩ : FontDescriptor)) = l := by
    intro l
    induction l with
    | nil => rfl
    | cons a as ih => simp [ih]
  have h2 : ∀ l : List RGBColor, l.map (fun c => (⟨c.r, c.g, c.b⟩ : RGBColor)) = l := by
    intro l
    induction l with
    | nil => rfl
    | cons a as ih => simp [ih]
  have h3 : ∀ l : List RevisionAuthor, l.map (fun a => (⟨a.index, a.name⟩ : RevisionAuthor)) = l := by
    intro l
    induction l with
    | nil => rfl
    | cons a as ih => simp [ih]
  have h4 : ∀ l : List RTFNode, l.map cloneNode = l := by
    intro l
    induction l with
    | nil => rfl
    | cons a as ih => simp [cloneNode_eq, ih]
  cases d
  simp [cloneDocument, h1, h2, h3, h4]

/-! ## Lemmas: revision bookkeeping -/

theorem revisionChildren_append (l1 l2 : List InlineNode) :
    revisionChildren (l1 ++ l2) = revisionChildren l1 ++ revisionChildren l2 := by
  induction l1 with
  | nil => rfl
  | cons n rest ih => cases n <;> simp [revisionChildren, ih]

theorem topRevisions_append (l1 l2 : List RTFNode) :
    topRevisions (l1 ++ l2) = topRevisions l1 ++ topRevisions l2 := by
  induction l1 with
  | nil => rfl
  | cons n rest ih => cases n <;> simp [topRevisions, ih]

theorem paragraphHasRevision_eq_false_iff (cs : List InlineNode) :
    paragraphHasRevision cs = false ↔ revisionChildren cs = [] := by
  induction cs with
  | nil => simp [paragraphHasRevision, revisionChildren]
  | cons n rest ih => cases n <;> simp [paragraphHasRevision, revisionChildren, ih]

/-- Accepting all changes in a paragraph whose revisions are themselves
revision-free leaves a paragraph without revisions. -/
theorem revisionChildren_acceptAllRevisions (cs : List InlineNode)
    (h : ∀ n ∈ revisionChildren cs, revisionContentFree n = true) :
    revisionChildren (acceptAllRevisions cs) = [] := by
  induction cs with
  | nil => rfl
  | cons n rest ih =>
    cases n with
    | text c f =>
      simp [revisionChildren] at h
      simp [acceptAllRevisions, revisionChildren, ih h]
    | revision t c a ts =>
      have hn : revisionContentFree (.revision t c a ts) = true := by
        apply h
        simp [revisionChildren]
      have hrest : ∀ m ∈ revisionChildren rest, revisionContentFree m = true := by
        intro m hm
        apply h
        simp [revisionChildren, hm]
      have hc : revisionChildren c = [] := by
        rw [← paragraphHasRevision_eq_false_iff]
        simpa [revisionContentFree] using hn
      cases t with
      | deletion => simp [acceptAllRevisions, ih hrest]
      | insertion => simp [acceptAllRevisions, revisionChildren_append, hc, ih hrest]
      | formatting => simp [acceptAllRevisions, revisionChildren_append, hc, ih hrest]

/-- On a paragraph without revisions, acceptAllRevisions is the identity. -/
theorem acceptAllRevisions_of_noRevision (cs : List InlineNode)
    (h : revisionChildren cs = []) : acceptAllRevisions cs = cs := by
  induction cs with
  | nil => rfl
  | cons n rest ih =>
    cases n with
    | text c f =>
      simp [revisionChildren] at h
      simp [acceptAllRevisions, ih h]
    | revision t c a ts => simp [revisionChildren] at h

theorem collectChangesInlines_of_noRevision (table : List RevisionAuthor) (pIdx : Nat)
    (cs : List InlineNode) (h : revisionChildren cs = []) :
    ∀ counter offset, collectChangesInlines table pIdx cs counter offset = some ([], counter) := by
  induction cs with
  | nil => intro counter offset; rfl
  | cons n rest ih =>
    intro counter offset
    cases n with
    | text c f =>
      simp [revisionChildren] at h
      simp [collectChangesInlines, ih h]
    | revision t c a ts => simp [revisionChildren] at h

theorem collectChangesContent_of_noTopRevisions (table : List RevisionAuthor)
    (content : List RTFNode) (h : topRevisions content = []) :
    ∀ counter pIdx, collectChangesContent table content counter pIdx = some ([], counter) := by
  induction content with
  | nil => intro c p; rfl
  | cons n rest ih =>
    intro counter pIdx
    cases n with
    | paragraph cs f =>
      rw [topRevisions, List.append_eq_nil] at h
      obtain ⟨h1, h2⟩ := h
      simp [collectChangesContent, collectChangesInlines_of_noRevision table pIdx cs h1, ih h2]
    | inline m =>
      rw [topRevisions] at h
      simp [collectChangesContent, ih h]

theorem getTrackChanges_of_noTopRevisions (d : RTFDocument)
    (h : topRevisions d.content = []) : getTrackChanges d = some [] := by
  simp [getTrackChanges, collectChangesContent_of_noTopRevisions d.revisionTable d.content h]

theorem topRevisions_map_acceptAllNode (content : List RTFNode)
    (h : ∀ n ∈ topRevisions content, revisionContentFree n = true) :
    topRevisions (content.map acceptAllNode) = [] := by
  induction content with
  | nil => rfl
  | cons n rest ih =>
    cases n with
    | paragraph cs f =>
      rw [topRevisions] at h
      have h1 : ∀ m ∈ revisionChildren cs, revisionContentFree m = true := by
        intro m hm
        exact h m (List.mem_append_left _ hm)
      have h2 : ∀ m ∈ topRevisions rest, revisionContentFree m = true := by
        intro m hm
        exact h m (List.mem_append_right _ hm)
      simp [acceptAllNode, topRevisions, revisionChildren_acceptAllRevisions cs h1, ih h2]
    | inline m =>
      rw [topRevisions] at h
      simp [acceptAllNode, topRevisions, ih h]

theorem map_acceptAllNode_id (content : List RTFNode) (h : topRevisions content = []) :
    content.map acceptAllNode = content := by
  induction content with
  | nil => rfl
  | cons n rest ih =>
    cases n with
    | paragraph cs f =>
      rw [topRevisions, List.append_eq_nil] at h
      obtain ⟨h1, h2⟩ := h
      simp [acceptAllNode, acceptAllRevisions_of_noRevision cs h1, ih h2]
    | inline m =>
      rw [topRevisions] at h
      simp [acceptAllNode, ih h]

/-! ## Lemmas: what getTrackChanges extracts -/

/-- The revision case of collectChangesInlines, with the do-notation spelled
out as Option.bind. -/
theorem collectChangesInlines_cons_revision (table : List RevisionAuthor) (pIdx : Nat)
    (t : RevisionType) (c : List InlineNode) (a ts : Option Int)
    (rest : List InlineNode) (counter offset : Nat) :
    collectChangesInlines table pIdx (.revision t c a ts :: rest) counter offset =
      (authorNameLookup table (a.getD 0)).bind (fun authorName =>
        (collectChangesInlines table pIdx rest (counter + 1)
            (offset + (extractText c).length)).bind (fun p =>
          some ({ id := mkChangeId counter, type := t, author := authorName,
                  authorIndex := a.getD 0, text := extractText c,
                  timestamp := ts.map (fun v => v * 60000),
                  paragraphIndex := pIdx, characterOffset := offset } :: p.1, p.2))) := rfl

/-- The paragraph case of collectChangesContent, with the do-notation
spelled out as Option.bind. -/
theorem collectChangesContent_cons_paragraph (table : List RevisionAuthor)
    (cs : List InlineNode) (f : ParagraphFormatting) (rest : List RTFNode)
    (counter pIdx : Nat) :
    collectChangesContent table (.paragraph cs f :: rest) counter pIdx =
      (collectChangesInlines table pIdx cs counter 0).bind (fun p =>
        (collectChangesContent table rest p.2 (pIdx + 1)).bind (fun q =>
          some (p.1 ++ q.1, q.2))) := rfl

theorem collectChangesInlines_isSome (table : List RevisionAuthor) (pIdx : Nat)
    (cs : List InlineNode) : ∀ counter offset,
    (collectChangesInlines table pIdx cs counter offset).isSome
      = (revisionChildren cs).all (authorOk table) := by
  induction cs with
  | nil => intro counter offset; rfl
  | cons n rest ih =>
    intro counter offset
    cases n with
    | text c f => simp [collectChangesInlines, revisionChildren, ih counter (offset + c.length)]
    | revision t c a ts =>
      rw [collectChangesInlines]
      cases hlk : authorNameLookup table (a.getD 0) with
      | none => simp [revisionChildren, authorOk, hlk]
      | some name =>
        cases hrec : collectChangesInlines table pIdx rest (counter + 1)
            (offset + (extractText c).length) with
        | none =>
          have := ih (counter + 1) (offset + (extractText c).length)
          rw [hrec] at this
          simp [revisionChildren, authorOk, hlk, hrec, ← this]
        | some p =>
          have := ih (counter + 1) (offset + (extractText c).length)
          rw [hrec] at this
          simp [revisionChildren, authorOk, hlk, hrec, ← this]

theorem collectChangesContent_isSome (table : List RevisionAuthor)
    (content : List RTFNode) : ∀ counter pIdx,
    (collectChangesContent table content counter pIdx).isSome
      = (topRevisions content).all (authorOk table) := by
  induction content with
  | nil => intro counter pIdx; rfl
  | cons n rest ih =>
    intro counter pIdx
    cases n with
    | paragraph cs f =>
      rw [collectChangesContent, topRevisions]
      cases hin : collectChangesInlines table pIdx cs counter 0 with
      | none =>
        have := collectChangesInlines_isSome table pIdx cs counter 0
        rw [hin] at this
        simp [List.all_append, ← this]
      | some p =>
        have h1 := collectChangesInlines_isSome table pIdx cs counter 0
        rw [hin] at h1
        cases hrec : collectChangesContent table rest p.2 (pIdx + 1) with
        | none =>
          have h2 := ih p.2 (pIdx + 1)
          rw [hrec] at h2
          simp [List.all_append, hin, hrec, ← h1, ← h2]
        | some q =>
          have h2 := ih p.2 (pIdx + 1)
          rw [hrec] at h2
          simp [List.all_append, hin, hrec, ← h1, ← h2]
    | inline m =>
      rw [collectChangesContent, topRevisions]
      exact ih counter (pIdx + 1)

theorem collectChangesInlines_spec (table : List RevisionAuthor) (pIdx : Nat)
    (cs : List InlineNode) : ∀ counter offset out counter',
    collectChangesInlines table pIdx cs counter offset = some (out, counter') →
    counter' = counter + (revisionChildren cs).length ∧
    out.map (fun c => c.id) = (List.range' counter (revisionChildren cs).length).map mkChangeId ∧
    out.map (fun c => c.text) = (revisionChildren cs).map extractTextOne ∧
    (∀ c ∈ out, authorNameLookup table c.authorIndex = some c.author) := by
  induction cs with
  | nil =>
    intro counter offset out counter' h
    rw [collectChangesInlines] at h
    obtain ⟨rfl, rfl⟩ : out = [] ∧ counter' = counter := by
      simpa [eq_comm] using h
    simp [revisionChildren]
  | cons n rest ih =>
    intro counter offset out counter' h
    cases n with
    | text c f =>
      rw [collectChangesInlines] at h
      simpa [revisionChildren] using ih counter (offset + c.length) out counter' h
    | revision t c a ts =>
      rw [collectChangesInlines_cons_revision] at h
      cases hlk : authorNameLookup table (a.getD 0) with
      | none => rw [hlk] at h; simp at h
      | some name =>
        rw [hlk, Option.some_bind] at h
        cases hrec : collectChangesInlines table pIdx rest (counter + 1)
            (offset + (extractText c).length) with
        | none => rw [hrec] at h; simp at h
        | some p =>
          obtain ⟨restOut, counter2⟩ := p
          rw [hrec, Option.some_bind, Option.some.injEq, Prod.mk.injEq] at h
          obtain ⟨h1, h2, h3, h4⟩ := ih (counter + 1) (offset + (extractText c).length)
            restOut counter2 hrec
          obtain ⟨h5, h6⟩ := h
          subst h5
          subst h6
          refine ⟨by simpa [revisionChildren] using by omega, ?_, ?_, ?_⟩
          · simp [revisionChildren, List.range'_succ, h2]
          · simp [revisionChildren, extractTextOne, h3]
          · intro ch hch
            rcases List.mem_cons.1 hch with rfl | hmem
            · simp [hlk]
            · exact h4 ch hmem

theorem collectChangesContent_spec (table : List RevisionAuthor)
    (content : List RTFNode) : ∀ counter pIdx out counter',
    collectChangesContent table content counter pIdx = some (out, counter') →
    counter' = counter + (topRevisions content).length ∧
    out.map (fun c => c.id) = (List.range' counter (topRevisions content).length).map mkChangeId ∧
    out.map (fun c => c.text) = (topRevisions content).map extractTextOne ∧
    (∀ c ∈ out, authorNameLookup table c.authorIndex = some c.author) := by
  induction content with
  | nil =>
    intro counter pIdx out counter' h
    rw [collectChangesContent] at h
    obtain ⟨rfl, rfl⟩ : out = [] ∧ counter' = counter := by
      simpa [eq_comm] using h
    simp [topRevisions]
  | cons n rest ih =>
    intro counter pIdx out counter' h
    cases n with
    | paragraph cs f =>
      rw [collectChangesContent_cons_paragraph] at h
      cases hin : collectChangesInlines table pIdx cs counter 0 with
      | none => rw [hin] at h; simp at h
      | some p =>
        obtain ⟨csOut, counter1⟩ := p
        rw [hin, Option.some_bind] at h
        obtain ⟨g1, g2, g3, g4⟩ := collectChangesInlines_spec table pIdx cs counter 0 csOut counter1 hin
        cases hrec : collectChangesContent table rest counter1 (pIdx + 1) with
        | none => rw [hrec] at h; simp at h
        | some q =>
          obtain ⟨restOut, counter2⟩ := q
          rw [hrec, Option.some_bind, Option.some.injEq, Prod.mk.injEq] at h
          obtain ⟨h1, h2, h3, h4⟩ := ih counter1 (pIdx + 1) restOut counter2 hrec
          obtain ⟨h5, h6⟩ := h
          subst h5
          subst h6
          subst g1
          refine ⟨by simp [topRevisions]; omega, ?_, ?_, ?_⟩
          · have hsplit := List.range'_append_1 counter
              (revisionChildren cs).length (topRevisions rest).length
            rw [topRevisions, List.length_append,
              Nat.add_comm (revisionChildren cs).length (topRevisions rest).length]
            simp only [g2, h2, List.map_append]
            rw [← List.map_append, hsplit]
          · rw [topRevisions]
            simp [g3, h3]
          · intro ch hch
            rcases List.mem_append.1 (by simpa using hch) with hmem | hmem
            · exact g4 ch hmem
            · exact h4 ch hmem
    | inline m =>
      rw [collectChangesContent] at h
      rw [topRevisions]
      exact ih counter (pIdx + 1) out counter' h

theorem getTrackChanges_isSome (d : RTFDocument) :
    (getTrackChanges d).isSome = (topRevisions d.content).all (authorOk d.revisionTable) := by
  rw [getTrackChanges, Option.isSome_map']
  exact collectChangesContent_isSome d.revisionTable d.content 0 0

theorem getTrackChanges_spec (d : RTFDocument) (cs : List TrackChange)
    (h : getTrackChanges d = some cs) :
    cs.map (fun c => c.id) = (List.range (topRevisions d.content).length).map mkChangeId ∧
    cs.map (fun c => c.text) = (topRevisions d.content).map extractTextOne ∧
    (∀ c ∈ cs, authorNameLookup d.revisionTable c.authorIndex = some c.author) := by
  rw [getTrackChanges] at h
  cases hc : collectChangesContent d.revisionTable d.content 0 0 with
  | none => rw [hc] at h; simp at h
  | some p =>
    rw [hc] at h
    obtain ⟨out, counter'⟩ := p
    obtain ⟨h1, h2, h3, h4⟩ := collectChangesContent_spec d.revisionTable d.content 0 0 out counter' hc
    simp only [Option.map_some', Option.some.injEq] at h
    subst h
    exact ⟨by rw [List.range_eq_range']; exact h2, h3, h4⟩

theorem getTrackChanges_length (d : RTFDocument) (cs : List TrackChange)
    (h : getTrackChanges d = some cs) : cs.length = (topRevisions d.content).length := by
  obtain ⟨h1, _, _⟩ := getTrackChanges_spec d cs h
  have := congrArg List.length h1
  simpa using this

/-! ## Lemmas: what findRevisionById locates -/

theorem findInlines_cons_text (c : String) (f : CharacterFormatting)
    (rest : List InlineNode) (iIdx counter : Nat) (changeId : String) :
    findInlines (.text c f :: rest) iIdx counter changeId =
      findInlines rest (iIdx + 1) counter changeId := rfl

theorem findInlines_cons_revision (t : RevisionType) (c : List InlineNode)
    (a ts : Option Int) (rest : List InlineNode) (iIdx counter : Nat) (changeId : String) :
    findInlines (.revision t c a ts :: rest) iIdx counter changeId =
      if mkChangeId counter = changeId then (some (iIdx, .revision t c a ts), counter + 1)
      else findInlines rest (iIdx + 1) (counter + 1) changeId := rfl

theorem findContent_cons_paragraph (cs : List InlineNode) (f : ParagraphFormatting)
    (rest : List RTFNode) (pIdx counter : Nat) (changeId : String) :
    findContent (.paragraph cs f :: rest) pIdx counter changeId =
      (match findInlines cs 0 counter changeId with
       | (some (iIdx, node), _) => some ⟨pIdx, iIdx, node⟩
       | (none, counter') => findContent rest (pIdx + 1) counter' changeId) := rfl

theorem findContent_cons_inline (m : InlineNode) (rest : List RTFNode)
    (pIdx counter : Nat) (changeId : String) :
    findContent (.inline m :: rest) pIdx counter changeId =
      findContent rest (pIdx + 1) counter changeId := rfl

theorem findInlines_eq_none (cs : List InlineNode) : ∀ iIdx counter changeId,
    (∀ j, counter ≤ j → j < counter + (revisionChildren cs).length → changeId ≠ mkChangeId j) →
    findInlines cs iIdx counter changeId = (none, counter + (revisionChildren cs).length) := by
  induction cs with
  | nil => intro iIdx counter changeId h; simp [findInlines, revisionChildren]
  | cons n rest ih =>
    intro iIdx counter changeId h
    cases n with
    | text c f =>
      rw [findInlines_cons_text]
      simpa [revisionChildren] using ih (iIdx + 1) counter changeId (by simpa [revisionChildren] using h)
    | revision t c a ts =>
      rw [findInlines_cons_revision]
      have hne : ¬ (mkChangeId counter = changeId) := by
        intro heq
        exact h counter le_rfl (by simp only [revisionChildren, List.length_cons]; omega) heq.symm
      rw [if_neg hne]
      have := ih (iIdx + 1) (counter + 1) changeId (by
        intro j hj1 hj2
        refine h j (by omega) ?_
        simp only [revisionChildren, List.length_cons]
        omega)
      rw [this]
      simp [revisionChildren]
      omega

theorem findInlines_none_counter (cs : List InlineNode) : ∀ iIdx counter changeId,
    (findInlines cs iIdx counter changeId).1 = none →
    (findInlines cs iIdx counter changeId).2 = counter + (revisionChildren cs).length := by
  induction cs with
  | nil => intro iIdx counter changeId _; simp [findInlines, revisionChildren]
  | cons n rest ih =>
    intro iIdx counter changeId h
    cases n with
    | text c f =>
      rw [findInlines_cons_text] at h ⊢
      simpa [revisionChildren] using ih (iIdx + 1) counter changeId h
    | revision t c a ts =>
      rw [findInlines_cons_revision] at h ⊢
      by_cases heq : mkChangeId counter = changeId
      · rw [if_pos heq] at h; simp at h
      · rw [if_neg heq] at h ⊢
        have := ih (iIdx + 1) (counter + 1) changeId h
        rw [this]
        simp [revisionChildren]
        omega

theorem findInlines_found (cs : List InlineNode) : ∀ iIdx counter changeId i node,
    (findInlines cs iIdx counter changeId).1 = some (i, node) →
    iIdx ≤ i ∧ cs.get? (i - iIdx) = some node ∧ node.isRevision = true := by
  induction cs with
  | nil => intro iIdx counter changeId i node h; simp [findInlines] at h
  | cons n rest ih =>
    intro iIdx counter changeId i node h
    cases n with
    | text c f =>
      rw [findInlines_cons_text] at h
      obtain ⟨h1, h2, h3⟩ := ih (iIdx + 1) counter changeId i node h
      refine ⟨by omega, ?_, h3⟩
      have : i - iIdx = (i - (iIdx + 1)) + 1 := by omega
      rw [this]
      simpa using h2
    | revision t c a ts =>
      rw [findInlines_cons_revision] at h
      by_cases heq : mkChangeId counter = changeId
      · rw [if_pos heq] at h
        simp only [Prod.mk.injEq, Option.some.injEq] at h
        obtain ⟨rfl, rfl⟩ := h
        simp [InlineNode.isRevision]
      · rw [if_neg heq] at h
        obtain ⟨h1, h2, h3⟩ := ih (iIdx + 1) (counter + 1) changeId i node h
        refine ⟨by omega, ?_, h3⟩
        have : i - iIdx = (i - (iIdx + 1)) + 1 := by omega
        rw [this]
        simpa using h2

theorem findInlines_isSome (cs : List InlineNode) : ∀ iIdx counter changeId,
    (∃ j, counter ≤ j ∧ j < counter + (revisionChildren cs).length ∧ changeId = mkChangeId j) →
    (findInlines cs iIdx counter changeId).1.isSome = true := by
  induction cs with
  | nil =>
    intro iIdx counter changeId h
    obtain ⟨j, h1, h2, _⟩ := h
    simp [revisionChildren] at h2
    omega
  | cons n rest ih =>
    intro iIdx counter changeId h
    cases n with
    | text c f =>
      rw [findInlines_cons_text]
      exact ih (iIdx + 1) counter changeId (by simpa [revisionChildren] using h)
    | revision t c a ts =>
      rw [findInlines_cons_revision]
      by_cases heq : mkChangeId counter = changeId
      · rw [if_pos heq]; rfl
      · rw [if_neg heq]
        obtain ⟨j, h1, h2, h3⟩ := h
        refine ih (iIdx + 1) (counter + 1) changeId ⟨j, ?_, ?_, h3⟩
        · rcases Nat.eq_or_lt_of_le h1 with rfl | hlt
          · exact absurd h3.symm heq
          · omega
        · simp only [revisionChildren, List.length_cons] at h2
          omega

theorem findContent_eq_none (content : List RTFNode) : ∀ pIdx counter changeId,
    (∀ j, counter ≤ j → j < counter + (topRevisions content).length → changeId ≠ mkChangeId j) →
    findContent content pIdx counter changeId = none := by
  induction content with
  | nil => intro pIdx counter changeId _; rfl
  | cons n rest ih =>
    intro pIdx counter changeId h
    cases n with
    | paragraph cs f =>
      rw [findContent_cons_paragraph]
      have hfi := findInlines_eq_none cs 0 counter changeId (by
        intro j hj1 hj2
        refine h j hj1 ?_
        rw [topRevisions, List.length_append]
        omega)
      rw [hfi]
      exact ih (pIdx + 1) (counter + (revisionChildren cs).length) changeId (by
        intro j hj1 hj2
        refine h j (by omega) ?_
        rw [topRevisions, List.length_append]
        omega)
    | inline m =>
      rw [findContent_cons_inline]
      rw [topRevisions] at h
      exact ih (pIdx + 1) counter changeId h

theorem findContent_found (content : List RTFNode) : ∀ pIdx counter changeId loc,
    findContent content pIdx counter changeId = some loc →
    pIdx ≤ loc.paragraphIndex ∧
    (∃ pcs fmt, content.get? (loc.paragraphIndex - pIdx) = some (.paragraph pcs fmt) ∧
      pcs.get? loc.inlineIndex = some loc.revisionNode ∧
      loc.revisionNode.isRevision = true) := by
  induction content with
  | nil => intro pIdx counter changeId loc h; simp [findContent] at h
  | cons n rest ih =>
    intro pIdx counter changeId loc h
    cases n with
    | paragraph cs f =>
      rw [findContent_cons_paragraph] at h
      cases hfi : findInlines cs 0 counter changeId with
      | mk fst counter1 =>
        rw [hfi] at h
        cases fst with
        | some p =>
          obtain ⟨i, node⟩ := p
          simp only [Option.some.injEq] at h
          subst h
          obtain ⟨_, h2, h3⟩ := findInlines_found cs 0 counter changeId i node (by rw [hfi])
          exact ⟨le_rfl, cs, f, by simp, by simpa using h2, h3⟩
        | none =>
          obtain ⟨h1, pcs, fmt, h2, h3, h4⟩ := ih (pIdx + 1) counter1 changeId loc h
          refine ⟨by omega, pcs, fmt, ?_, h3, h4⟩
          have : loc.paragraphIndex - pIdx = (loc.paragraphIndex - (pIdx + 1)) + 1 := by omega
          rw [this]
          simpa using h2
    | inline m =>
      rw [findContent_cons_inline] at h
      obtain ⟨h1, pcs, fmt, h2, h3, h4⟩ := ih (pIdx + 1) counter changeId loc h
      refine ⟨by omega, pcs, fmt, ?_, h3, h4⟩
      have : loc.paragraphIndex - pIdx = (loc.paragraphIndex - (pIdx + 1)) + 1 := by omega
      rw [this]
      simpa using h2

theorem findContent_isSome (content : List RTFNode) : ∀ pIdx counter changeId,
    (∃ j, counter ≤ j ∧ j < counter + (topRevisions content).length ∧ changeId = mkChangeId j) →
    (findContent content pIdx counter changeId).isSome = true := by
  induction content with
  | nil =>
    intro pIdx counter changeId h
    obtain ⟨j, h1, h2, _⟩ := h
    simp [topRevisions] at h2
    omega
  | cons n rest ih =>
    intro pIdx counter changeId h
    cases n with
    | paragraph cs f =>
      rw [findContent_cons_paragraph]
      cases hfi : findInlines cs 0 counter changeId with
      | mk fst counter1 =>
        cases fst with
        | some p => obtain ⟨i, node⟩ := p; rfl
        | none =>
          obtain ⟨j, h1, h2, h3⟩ := h
          have hcnt : counter1 = counter + (revisionChildren cs).length := by
            have := findInlines_none_counter cs 0 counter changeId (by rw [hfi])
            rw [hfi] at this
            exact this
          by_cases hblock : j < counter + (revisionChildren cs).length
          · exfalso
            have := findInlines_isSome cs 0 counter changeId ⟨j, h1, hblock, h3⟩
            rw [hfi] at this
            simp at this
          · refine ih (pIdx + 1) counter1 changeId ⟨j, by omega, ?_, h3⟩
            rw [topRevisions, List.length_append] at h2
            omega
    | inline m =>
      rw [findContent_cons_inline]
      rw [topRevisions] at h
      exact ih (pIdx + 1) counter changeId h

theorem findRevisionById_eq_none (d : RTFDocument) (changeId : String)
    (h : ∀ j < (topRevisions d.content).length, changeId ≠ mkChangeId j) :
    findRevisionById d changeId = none :=
  findContent_eq_none d.content 0 0 changeId (by
    intro j _ hj2
    exact h j (by omega))

theorem findRevisionById_found (d : RTFDocument) (changeId : String)
    (loc : FoundRevision) (h : findRevisionById d changeId = some loc) :
    ∃ pcs fmt, d.content.get? loc.paragraphIndex = some (.paragraph pcs fmt) ∧
      pcs.get? loc.inlineIndex = some loc.revisionNode ∧
      loc.revisionNode.isRevision = true := by
  obtain ⟨_, pcs, fmt, h2, h3, h4⟩ := findContent_found d.content 0 0 changeId loc h
  exact ⟨pcs, fmt, by simpa using h2, h3, h4⟩

theorem findRevisionById_isSome (d : RTFDocument) (changeId : String)
    (h : ∃ j < (topRevisions d.content).length, changeId = mkChangeId j) :
    (findRevisionById d changeId).isSome = true := by
  obtain ⟨j, h1, h2⟩ := h
  exact findContent_isSome d.content 0 0 changeId ⟨j, by omega, by omega, h2⟩

/-! ## Lemmas: what a single accept/reject edit does to the tree -/

theorem get?_decomp {α : Type} (cs : List α) : ∀ (k : Nat) (node : α),
    cs.get? k = some node → cs = cs.take k ++ node :: cs.drop (k + 1) := by
  induction cs with
  | nil => intro k node h; simp at h
  | cons x rest ih =>
    intro k node h
    cases k with
    | zero =>
      simp only [List.get?] at h
      obtain rfl := Option.some.inj h
      simp
    | succ k =>
      simp only [List.get?] at h
      have := ih k node h
      simp only [List.take_succ_cons, List.drop_succ_cons]
      exact congrArg (x :: ·) this

theorem set_decomp {α : Type} (cs : List α) : ∀ (k : Nat) (a b : α),
    cs.get? k = some a → cs.set k b = cs.take k ++ b :: cs.drop (k + 1) := by
  induction cs with
  | nil => intro k a b h; simp at h
  | cons x rest ih =>
    intro k a b h
    cases k with
    | zero => simp
    | succ k =>
      simp only [List.get?] at h
      simp only [List.set_cons_succ, List.take_succ_cons, List.drop_succ_cons]
      exact congrArg (x :: ·) (ih k a b h)

theorem processRevisionGo_cons (inlineIndex : Nat) (action : RevAction)
    (node : InlineNode) (rest : List InlineNode) (i : Nat) :
    processRevisionGo inlineIndex action (node :: rest) i =
      (if i = inlineIndex then
        (match action, node with
         | .unwrap, .revision _ c _ _ => c
         | .unwrap, _ => []
         | .remove, _ => []) ++ processRevisionGo inlineIndex action rest (i + 1)
      else node :: processRevisionGo inlineIndex action rest (i + 1)) := rfl

theorem processRevisionGo_of_lt (inlineIndex : Nat) (action : RevAction) :
    ∀ (cs : List InlineNode) (i : Nat), inlineIndex < i →
      processRevisionGo inlineIndex action cs i = cs := by
  intro cs
  induction cs with
  | nil => intro i _; rfl
  | cons x rest ih =>
    intro i h
    rw [processRevisionGo_cons, if_neg (by omega)]
    rw [ih (i + 1) (by omega)]

/-- What processRevisionInParagraph puts in place of the processed node. -/
def spliceOf : RevAction → InlineNode → List InlineNode
  | .unwrap, .revision _ c _ _ => c
  | .unwrap, _ => []
  | .remove, _ => []

theorem processRevisionGo_splice (action : RevAction) :
    ∀ (cs : List InlineNode) (k i : Nat) (node : InlineNode), cs.get? k = some node →
      processRevisionGo (i + k) action cs i =
        cs.take k ++ spliceOf action node ++ cs.drop (k + 1) := by
  intro cs
  induction cs with
  | nil => intro k i node h; simp at h
  | cons x rest ih =>
    intro k i node h
    cases k with
    | zero =>
      simp only [List.get?] at h
      obtain rfl := Option.some.inj h
      rw [processRevisionGo_cons, if_pos (by omega)]
      rw [processRevisionGo_of_lt _ _ rest (i + 1) (by omega)]
      cases action with
      | remove => simp [spliceOf]
      | unwrap => cases x <;> simp [spliceOf]
    | succ k =>
      simp only [List.get?] at h
      rw [processRevisionGo_cons, if_neg (by omega)]
      have heq : i + (k + 1) = (i + 1) + k := by omega
      rw [heq, ih k (i + 1) node h]
      simp

theorem processRevisionInParagraph_splice (cs : List InlineNode) (idx : Nat)
    (node : InlineNode) (action : RevAction) (h : cs.get? idx = some node) :
    processRevisionInParagraph cs idx action =
      cs.take idx ++ spliceOf action node ++ cs.drop (idx + 1) := by
  rw [processRevisionInParagraph]
  have := processRevisionGo_splice action cs idx 0 node h
  simpa using this

theorem revisionChildren_cons_revision (t : RevisionType) (c : List InlineNode)
    (a ts : Option Int) (rest : List InlineNode) :
    revisionChildren (.revision t c a ts :: rest) =
      .revision t c a ts :: revisionChildren rest := rfl

theorem mem_topRevisions_of_get (content : List RTFNode) (p i : Nat)
    (pcs : List InlineNode) (fmt : ParagraphFormatting) (node : InlineNode)
    (hp : content.get? p = some (.paragraph pcs fmt))
    (hi : pcs.get? i = some node) (hrev : node.isRevision = true) :
    node ∈ topRevisions content := by
  rw [get?_decomp content p _ hp, topRevisions_append]
  apply List.mem_append_right
  show node ∈ topRevisions (RTFNode.paragraph pcs fmt :: _)
  rw [topRevisions]
  apply List.mem_append_left
  rw [get?_decomp pcs i node hi, revisionChildren_append]
  apply List.mem_append_right
  cases node with
  | text _ _ => simp [InlineNode.isRevision] at hrev
  | revision t c a ts => rw [revisionChildren_cons_revision]; exact List.mem_cons_self _ _

theorem topRevisions_decomp (content : List RTFNode) (p : Nat)
    (pcs : List InlineNode) (fmt : ParagraphFormatting)
    (hp : content.get? p = some (.paragraph pcs fmt)) :
    topRevisions content =
      topRevisions (content.take p) ++ revisionChildren pcs ++
        topRevisions (content.drop (p + 1)) := by
  conv_lhs => rw [get?_decomp content p _ hp]
  rw [topRevisions_append]
  show _ = _
  rw [topRevisions]
  simp [List.append_assoc]

theorem topRevisions_set_paragraph (content : List RTFNode) (p : Nat)
    (pcs newC : List InlineNode) (fmt fmt' : ParagraphFormatting)
    (hp : content.get? p = some (.paragraph pcs fmt)) :
    topRevisions (content.set p (.paragraph newC fmt')) =
      topRevisions (content.take p) ++ revisionChildren newC ++
        topRevisions (content.drop (p + 1)) := by
  rw [set_decomp content p _ _ hp, topRevisions_append]
  show _ = _
  rw [topRevisions]
  simp [List.append_assoc]

/-- Editing the located revision removes exactly one addressable revision
(the splice contributing none), and introduces no revision that was not
already addressable. -/
theorem edit_topRevisions (d : RTFDocument) (loc : FoundRevision)
    (pcs : List InlineNode) (fmt : ParagraphFormatting) (action : RevAction)
    (hp : d.content.get? loc.paragraphIndex = some (.paragraph pcs fmt))
    (hi : pcs.get? loc.inlineIndex = some loc.revisionNode)
    (hrev : loc.revisionNode.isRevision = true)
    (hfree : revisionChildren (spliceOf action loc.revisionNode) = []) :
    (topRevisions (d.content.set loc.paragraphIndex
        (.paragraph (processRevisionInParagraph pcs loc.inlineIndex action) fmt))).length + 1 =
      (topRevisions d.content).length ∧
    (∀ x ∈ topRevisions (d.content.set loc.paragraphIndex
        (.paragraph (processRevisionInParagraph pcs loc.inlineIndex action) fmt)),
      x ∈ topRevisions d.content) := by
  have hset := topRevisions_set_paragraph d.content loc.paragraphIndex pcs
    (processRevisionInParagraph pcs loc.inlineIndex action) fmt fmt hp
  have horig := topRevisions_decomp d.content loc.paragraphIndex pcs fmt hp
  have hsplice := processRevisionInParagraph_splice pcs loc.inlineIndex loc.revisionNode action hi
  have hrcNew : revisionChildren (processRevisionInParagraph pcs loc.inlineIndex action) =
      revisionChildren (pcs.take loc.inlineIndex) ++
        revisionChildren (pcs.drop (loc.inlineIndex + 1)) := by
    rw [hsplice, revisionChildren_append, revisionChildren_append, hfree]
    simp
  have hrcOld : revisionChildren pcs =
      revisionChildren (pcs.take loc.inlineIndex) ++
        loc.revisionNode :: revisionChildren (pcs.drop (loc.inlineIndex + 1)) := by
    conv_lhs => rw [get?_decomp pcs loc.inlineIndex loc.revisionNode hi]
    rw [revisionChildren_append]
    cases hnode : loc.revisionNode with
    | text _ _ => rw [hnode] at hrev; simp [InlineNode.isRevision] at hrev
    | revision t c a ts => rw [revisionChildren_cons_revision]
  constructor
  · rw [hset, horig, hrcNew, hrcOld]
    simp only [List.length_append, List.length_cons]
    omega
  · intro x hx
    rw [hset, hrcNew] at hx
    rw [horig, hrcOld]
    simp only [List.mem_append, List.mem_cons] at hx ⊢
    tauto

/-- The shape acceptChange takes once the id has been located. -/
theorem acceptChange_of_found (d : RTFDocument) (changeId : String)
    (loc : FoundRevision) (pcs : List InlineNode) (fmt : ParagraphFormatting)
    (hfind : findRevisionById d changeId = some loc)
    (hp : d.content.get? loc.paragraphIndex = some (.paragraph pcs fmt)) :
    acceptChange d changeId =
      some { d with
        content := d.content.set loc.paragraphIndex
          (.paragraph (processRevisionInParagraph pcs loc.inlineIndex
            (acceptActionFor pcs loc.inlineIndex)) fmt),
        hasRevisions := some (hasAnyRevision (d.content.set loc.paragraphIndex
          (.paragraph (processRevisionInParagraph pcs loc.inlineIndex
            (acceptActionFor pcs loc.inlineIndex)) fmt))) } := by
  rw [acceptChange, hfind]
  simp only [cloneDocument_eq, hp]

/-- The shape rejectChange takes once the id has been located. -/
theorem rejectChange_of_found (d : RTFDocument) (changeId : String)
    (loc : FoundRevision) (pcs : List InlineNode) (fmt : ParagraphFormatting)
    (hfind : findRevisionById d changeId = some loc)
    (hp : d.content.get? loc.paragraphIndex = some (.paragraph pcs fmt)) :
    rejectChange d changeId =
      some { d with
        content := d.content.set loc.paragraphIndex
          (.paragraph (processRevisionInParagraph pcs loc.inlineIndex
            (rejectActionFor pcs loc.inlineIndex)) fmt),
        hasRevisions := some (hasAnyRevision (d.content.set loc.paragraphIndex
          (.paragraph (processRevisionInParagraph pcs loc.inlineIndex
            (rejectActionFor pcs loc.inlineIndex)) fmt))) } := by
  rw [rejectChange, hfind]
  simp only [cloneDocument_eq, hp]

/-- Whenever one addressable revision disappears (and none appears), the
new document still extracts, with one record fewer and freshly re-derived
ids. -/
theorem edited_doc_extraction (d d' : RTFDocument)
    (hrt : d'.revisionTable = d.revisionTable)
    (hlen : (topRevisions d'.content).length + 1 = (topRevisions d.content).length)
    (hsub : ∀ x ∈ topRevisions d'.content, x ∈ topRevisions d.content)
    (cs : List TrackChange) (hcs : getTrackChanges d = some cs) :
    ∃ cs', getTrackChanges d' = some cs' ∧ cs'.length + 1 = cs.length ∧
      cs'.map (fun x => x.id) =
        (List.range (topRevisions d'.content).length).map mkChangeId := by
  have hok : (topRevisions d.content).all (authorOk d.revisionTable) = true := by
    have := getTrackChanges_isSome d
    rw [hcs] at this
    exact this.symm
  have hok' : (topRevisions d'.content).all (authorOk d'.revisionTable) = true := by
    rw [hrt]
    rw [List.all_eq_true] at hok ⊢
    exact fun x hx => hok x (hsub x hx)
  have hsome : (getTrackChanges d').isSome := by
    rw [getTrackChanges_isSome]
    exact hok'
  obtain ⟨cs', hcs'⟩ := Option.isSome_iff_exists.1 hsome
  refine ⟨cs', hcs', ?_, (getTrackChanges_spec d' cs' hcs').1⟩
  have l1 := getTrackChanges_length d cs hcs
  have l2 := getTrackChanges_length d' cs' hcs'
  omega

/-! ## Injectivity of the change-id rendering -/

/-- Decimal digits of n, most significant first: the list Nat.toDigitsCore
builds for base 10. -/
def decDigits (n : Nat) : List Char :=
  if _ : n < 10 then [Nat.digitChar n]
  else decDigits (n / 10) ++ [Nat.digitChar (n % 10)]
decreasing_by exact Nat.div_lt_self (by omega) (by omega)

theorem toDigitsCore_eq_decDigits :
    ∀ (f n : Nat) (acc : List Char), n < f →
      Nat.toDigitsCore 10 f n acc = decDigits n ++ acc := by
  intro f
  induction f with
  | zero => intro n acc h; omega
  | succ f ih =>
    intro n acc h
    rw [Nat.toDigitsCore]
    by_cases h10 : n < 10
    · have hdiv : n / 10 = 0 := Nat.div_eq_of_lt h10
      rw [decDigits]
      simp [hdiv, h10, Nat.mod_eq_of_lt h10]
    · have hdiv : n / 10 ≠ 0 := by
        intro hz
        have := Nat.div_eq_zero_iff (by omega : 0 < 10) |>.1 hz
        omega
      rw [decDigits]
      simp only [h10, dif_neg, not_false_iff]
      rw [if_neg hdiv]
      rw [ih (n / 10) (Nat.digitChar (n % 10) :: acc) (by
        have : n / 10 < n := Nat.div_lt_self (by omega) (by omega)
        omega)]
      simp

theorem natRepr_eq_decDigits (n : Nat) : Nat.repr n = (decDigits n).asString := by
  rw [Nat.repr, Nat.toDigits]
  rw [toDigitsCore_eq_decDigits (n + 1) n [] (by omega)]
  simp

/-- Left inverse of the digit rendering. -/
def decValue (ds : List Char) : Nat :=
  ds.foldl (fun a c => 10 * a + (c.toNat - 48)) 0

theorem decValue_step (ds : List Char) (c : Char) (a : Nat) :
    (ds ++ [c]).foldl (fun a c => 10 * a + (c.toNat - 48)) a =
      10 * (ds.foldl (fun a c => 10 * a + (c.toNat - 48)) a) + (c.toNat - 48) := by
  rw [List.foldl_append]
  rfl

theorem digitChar_toNat_sub (d : Nat) (h : d < 10) : (Nat.digitChar d).toNat - 48 = d := by
  interval_cases d <;> decide

theorem decValue_decDigits (n : Nat) : decValue (decDigits n) = n := by
  induction n using Nat.strong_induction_on with
  | _ n ih =>
    by_cases h10 : n < 10
    · rw [decDigits]
      simp only [h10, dif_pos]
      simp [decValue, digitChar_toNat_sub n h10]
    · rw [decDigits]
      simp only [h10, dif_neg, not_false_iff]
      rw [decValue, decValue_step]
      rw [show (List.foldl (fun a c => 10 * a + (c.toNat - 48)) 0 (decDigits (n / 10)))
            = decValue (decDigits (n / 10)) from rfl]
      rw [ih (n / 10) (Nat.div_lt_self (by omega) (by omega))]
      rw [digitChar_toNat_sub (n % 10) (Nat.mod_lt _ (by omega))]
      omega

theorem natRepr_injective : Function.Injective Nat.repr := by
  intro m n h
  rw [natRepr_eq_decDigits, natRepr_eq_decDigits] at h
  have hdata : decDigits m = decDigits n := by
    have := congrArg String.data h
    simpa [List.asString] using this
  have := congrArg decValue hdata
  rwa [decValue_decDigits, decValue_decDigits] at this

theorem mkChangeId_injective : Function.Injective mkChangeId := by
  intro m n h
  rw [mkChangeId, mkChangeId] at h
  have hdata := congrArg String.data h
  simp only [String.data_append] at hdata
  have : (Nat.repr m).data = (Nat.repr n).data := by
    exact List.append_cancel_left hdata
  exact natRepr_injective (by
    cases hm : Nat.repr m
    cases hn : Nat.repr n
    rw [hm, hn] at this
    simp at this
    simp [this])

theorem mkChangeId_not_mem_range (n : Nat) :
    mkChangeId n ∉ (List.range n).map mkChangeId := by
  intro h
  obtain ⟨j, hj, heq⟩ := List.mem_map.1 h
  have := mkChangeId_injective heq
  subst this
  exact absurd (List.mem_range.1 hj) (lt_irrefl _)

/-! ## Concrete documents used by witnesses and counterexamples -/

/-- A parsed-shape document: one insertion revision with author index 1,
revision table Unknown/John Doe. -/
def sampleDoc : RTFDocument :=
  { rtfVersion := 1, charset := "ansi", defaultFont := none,
    fontTable := [], colorTable := [], stylesheetTable := [],
    revisionTable := [⟨0, "Unknown"⟩, ⟨1, "John Doe"⟩],
    content := [.paragraph
      [.text "Text " {},
       .revision .insertion [.text "inserted" {}] (some 1) none,
       .text " more." {}] {}],
    hasRevisions := some true }

/-- A document holding a RevisionNode nested inside another RevisionNode's
content: an insertion wrapping a deletion. -/
def nestedRevisionDoc : RTFDocument :=
  { rtfVersion := 1, charset := "ansi", defaultFont := none,
    fontTable := [], colorTable := [], stylesheetTable := [],
    revisionTable := [],
    content := [.paragraph
      [.revision .insertion
        [.revision .deletion [.text "x" {}] none none] none none] {}],
    hasRevisions := some true }

/-- Two sibling deletion revisions in one paragraph. -/
def twoDeletionsDoc : RTFDocument :=
  { rtfVersion := 1, charset := "ansi", defaultFont := none,
    fontTable := [], colorTable := [], stylesheetTable := [],
    revisionTable := [],
    content := [.paragraph
      [.revision .deletion [.text "a" {}] none none,
       .revision .deletion [.text "b" {}] none none] {}],
    hasRevisions := some true }

/-- A revision without an author index, while the revision table has an
entry at index 0 that is not named Unknown. -/
def missingAuthorDoc : RTFDocument :=
  { rtfVersion := 1, charset := "ansi", defaultFont := none,
    fontTable := [], colorTable := [], stylesheetTable := [],
    revisionTable := [⟨0, "Alice"⟩],
    content := [.paragraph
      [.revision .insertion [.text "x" {}] none none] {}],
    hasRevisions := some true }

/-- A revision with a negative author index. -/
def negativeAuthorDoc : RTFDocument :=
  { rtfVersion := 1, charset := "ansi", defaultFont := none,
    fontTable := [], colorTable := [], stylesheetTable := [],
    revisionTable := [⟨0, "Alice"⟩],
    content := [.paragraph
      [.revision .insertion [.text "x" {}] (some (-1)) none] {}],
    hasRevisions := some true }

/-! ## Claim C1 -/

/-- C1 (amended): on every document without a RevisionNode nested directly
inside another RevisionNode's content — every parser-produced document in
particular — acceptAllChanges is idempotent and the extraction of its
result is empty.  (The unrestricted claim fails: a nested revision is
spliced to the top level by the single pass; see the counterexample.) -/
theorem C1_acceptAllChanges_idempotent_and_extract_empty (d : RTFDocument)
    (h : noNestedRevisions d = true) :
    acceptAllChanges (acceptAllChanges d) = acceptAllChanges d ∧
    getTrackChanges (acceptAllChanges d) = some [] := by
  have hmem : ∀ n ∈ topRevisions d.content, revisionContentFree n = true := by
    simpa [noNestedRevisions, List.all_eq_true] using h
  have htop : topRevisions (acceptAllChanges d).content = [] := by
    simp only [acceptAllChanges, cloneDocument_eq]
    exact topRevisions_map_acceptAllNode d.content hmem
  constructor
  · have hc := map_acceptAllNode_id (acceptAllChanges d).content htop
    simp only [acceptAllChanges, cloneDocument_eq] at hc ⊢
    simp [hc]
  · exact getTrackChanges_of_noTopRevisions _ htop

/-- C1 witness: the amended theorem applied to a concrete document. -/
theorem C1_acceptAllChanges_idempotent_and_extract_empty_witness :
    noNestedRevisions sampleDoc = true ∧
    (acceptAllChanges (acceptAllChanges sampleDoc) = acceptAllChanges sampleDoc ∧
     getTrackChanges (acceptAllChanges sampleDoc) = some []) :=
  ⟨by decide, C1_acceptAllChanges_idempotent_and_extract_empty sampleDoc (by decide)⟩

/-- C1 counterexample: with a deletion nested inside an insertion, the
single pass splices the nested revision to the top level, so
acceptAllChanges is not idempotent and the extraction of its result is not
empty. -/
theorem C1_counterexample_nested :
    acceptAllChanges (acceptAllChanges nestedRevisionDoc) ≠ acceptAllChanges nestedRevisionDoc ∧
    getTrackChanges (acceptAllChanges nestedRevisionDoc) ≠ some [] := by decide

/-- The two records getTrackChanges extracts from twoDeletionsDoc. -/
def twoDeletionsChanges : List TrackChange :=
  [{ id := "change-0", type := .deletion, author := "Unknown",
     authorIndex := 0, text := "a", timestamp := none,
     paragraphIndex := 0, characterOffset := 0 },
   { id := "change-1", type := .deletion, author := "Unknown",
     authorIndex := 0, text := "b", timestamp := none,
     paragraphIndex := 0, characterOffset := 1 }]

/-- The first of the two records above. -/
def firstDeletionChange : TrackChange :=
  { id := "change-0", type := .deletion, author := "Unknown",
    authorIndex := 0, text := "a", timestamp := none,
    paragraphIndex := 0, characterOffset := 0 }

/-- The change record getTrackChanges extracts from sampleDoc. -/
def sampleChanges : List TrackChange :=
  [{ id := "change-0", type := .insertion, author := "John Doe",
     authorIndex := 1, text := "inserted", timestamp := none,
     paragraphIndex := 0, characterOffset := 5 }]

/-- The change record getTrackChanges extracts from nestedRevisionDoc. -/
def nestedChanges : List TrackChange :=
  [{ id := "change-0", type := .insertion, author := "Unknown",
     authorIndex := 0, text := "x", timestamp := none,
     paragraphIndex := 0, characterOffset := 0 }]

/-! ## Claim C2 -/

/-- The document a single accept/reject edit returns (clone with the edited
paragraph and recomputed hasRevisions). -/
def editedDocument (d : RTFDocument) (newCont : List RTFNode) : RTFDocument :=
  { d with content := newCont, hasRevisions := some (hasAnyRevision newCont) }

theorem spliceOf_revisionFree (node : InlineNode) (action : RevAction)
    (h : revisionContentFree node = true) (hrev : node.isRevision = true) :
    revisionChildren (spliceOf action node) = [] := by
  cases action with
  | remove => cases node <;> rfl
  | unwrap =>
    cases node with
    | text _ _ => rfl
    | revision t c a ts =>
      show revisionChildren c = []
      rw [← paragraphHasRevision_eq_false_iff]
      simpa [revisionContentFree] using h

/-- Every extracted change can be located, and (without nesting) its
revision node has revision-free content. -/
theorem locate_extracted_change (d : RTFDocument) (cs : List TrackChange) (c : TrackChange)
    (hcs : getTrackChanges d = some cs) (hc : c ∈ cs) (hnn : noNestedRevisions d = true) :
    ∃ loc pcs fmt, findRevisionById d c.id = some loc ∧
      d.content.get? loc.paragraphIndex = some (.paragraph pcs fmt) ∧
      pcs.get? loc.inlineIndex = some loc.revisionNode ∧
      loc.revisionNode.isRevision = true ∧
      revisionContentFree loc.revisionNode = true := by
  obtain ⟨hids, _, _⟩ := getTrackChanges_spec d cs hcs
  have hmem : c.id ∈ cs.map (fun x => x.id) := List.mem_map_of_mem _ hc
  rw [hids] at hmem
  obtain ⟨k, hk, hkeq⟩ := List.mem_map.1 hmem
  have hfindSome := findRevisionById_isSome d c.id ⟨k, List.mem_range.1 hk, hkeq.symm⟩
  obtain ⟨loc, hfind⟩ := Option.isSome_iff_exists.1 hfindSome
  obtain ⟨pcs, fmt, hp, hi, hrev⟩ := findRevisionById_found d c.id loc hfind
  have hmemTop := mem_topRevisions_of_get d.content loc.paragraphIndex loc.inlineIndex
    pcs fmt loc.revisionNode hp hi hrev
  have hfree : revisionContentFree loc.revisionNode = true := by
    rw [noNestedRevisions, List.all_eq_true] at hnn
    exact hnn _ hmemTop
  exact ⟨loc, pcs, fmt, hfind, hp, hi, hrev, hfree⟩

/-- C2 (amended): for every change c extracted from a document without
nested revisions, acceptChange(d, c.id) and rejectChange(d, c.id) both
succeed and return a document whose extraction has exactly one record
fewer, its ids re-derived as change-0 .. change-(n-2); hence the id of the
LAST original record, change-(n-1), no longer appears.  (For any earlier c
the literal string c.id generally reappears naming a different change,
because ids are re-derived positionally: see the counterexample.) -/
theorem C2_accept_reject_drop_one_record (d : RTFDocument) (cs : List TrackChange)
    (c : TrackChange) (hcs : getTrackChanges d = some cs) (hc : c ∈ cs)
    (hnn : noNestedRevisions d = true) :
    (∃ d' cs', acceptChange d c.id = some d' ∧ getTrackChanges d' = some cs' ∧
      cs'.length + 1 = cs.length ∧ mkChangeId cs'.length ∉ cs'.map (fun x => x.id)) ∧
    (∃ d' cs', rejectChange d c.id = some d' ∧ getTrackChanges d' = some cs' ∧
      cs'.length + 1 = cs.length ∧ mkChangeId cs'.length ∉ cs'.map (fun x => x.id)) := by
  obtain ⟨loc, pcs, fmt, hfind, hp, hi, hrev, hfreeNode⟩ :=
    locate_extracted_change d cs c hcs hc hnn
  constructor
  · let newCont := d.content.set loc.paragraphIndex
      (.paragraph (processRevisionInParagraph pcs loc.inlineIndex
        (acceptActionFor pcs loc.inlineIndex)) fmt)
    let d' : RTFDocument := editedDocument d newCont
    have hview : acceptChange d c.id = some d' :=
      acceptChange_of_found d c.id loc pcs fmt hfind hp
    have hfree := spliceOf_revisionFree loc.revisionNode
      (acceptActionFor pcs loc.inlineIndex) hfreeNode hrev
    obtain ⟨hlen, hsub⟩ := edit_topRevisions d loc pcs fmt
      (acceptActionFor pcs loc.inlineIndex) hp hi hrev hfree
    have hlen2 : (topRevisions d'.content).length + 1 = (topRevisions d.content).length := hlen
    have hsub2 : ∀ x ∈ topRevisions d'.content, x ∈ topRevisions d.content := hsub
    obtain ⟨cs', hcs', hlen', hids'⟩ := edited_doc_extraction d d' rfl hlen2 hsub2 cs hcs
    refine ⟨d', cs', hview, hcs', hlen', ?_⟩
    have hl : (topRevisions d'.content).length = cs'.length :=
      (getTrackChanges_length d' cs' hcs').symm
    rw [hids', hl]
    exact mkChangeId_not_mem_range cs'.length
  · let newCont := d.content.set loc.paragraphIndex
      (.paragraph (processRevisionInParagraph pcs loc.inlineIndex
        (rejectActionFor pcs loc.inlineIndex)) fmt)
    let d' : RTFDocument := editedDocument d newCont
    have hview : rejectChange d c.id = some d' :=
      rejectChange_of_found d c.id loc pcs fmt hfind hp
    have hfree := spliceOf_revisionFree loc.revisionNode
      (rejectActionFor pcs loc.inlineIndex) hfreeNode hrev
    obtain ⟨hlen, hsub⟩ := edit_topRevisions d loc pcs fmt
      (rejectActionFor pcs loc.inlineIndex) hp hi hrev hfree
    have hlen2 : (topRevisions d'.content).length + 1 = (topRevisions d.content).length := hlen
    have hsub2 : ∀ x ∈ topRevisions d'.content, x ∈ topRevisions d.content := hsub
    obtain ⟨cs', hcs', hlen', hids'⟩ := edited_doc_extraction d d' rfl hlen2 hsub2 cs hcs
    refine ⟨d', cs', hview, hcs', hlen', ?_⟩
    have hl : (topRevisions d'.content).length = cs'.length :=
      (getTrackChanges_length d' cs' hcs').symm
    rw [hids', hl]
    exact mkChangeId_not_mem_range cs'.length

/-- C2 witness: accepting or rejecting the first of two deletions on a
concrete document drops one record. -/
theorem C2_accept_reject_drop_one_record_witness :
    (getTrackChanges twoDeletionsDoc = some twoDeletionsChanges ∧
      twoDeletionsChanges.head? = some firstDeletionChange ∧
      noNestedRevisions twoDeletionsDoc = true) ∧
    ((∃ d' cs', acceptChange twoDeletionsDoc firstDeletionChange.id = some d' ∧
        getTrackChanges d' = some cs' ∧ cs'.length + 1 = twoDeletionsChanges.length ∧
        mkChangeId cs'.length ∉ cs'.map (fun x => x.id)) ∧
     (∃ d' cs', rejectChange twoDeletionsDoc firstDeletionChange.id = some d' ∧
        getTrackChanges d' = some cs' ∧ cs'.length + 1 = twoDeletionsChanges.length ∧
        mkChangeId cs'.length ∉ cs'.map (fun x => x.id))) :=
  ⟨⟨by decide, by decide, by decide⟩,
   C2_accept_reject_drop_one_record twoDeletionsDoc twoDeletionsChanges
     firstDeletionChange (by decide) (by decide) (by decide)⟩

/-- C2 counterexample: accepting (or rejecting) the FIRST of two changes
yields a document whose re-derived ids still include the string
"change-0" — the accepted change's own id — now naming the other change.
The claim as stated (the result "no longer contains a record with id
c.id", for every position of c) is therefore false. -/
theorem C2_counterexample_id_reused :
    (getTrackChanges twoDeletionsDoc).map (fun cs => cs.map (fun x => x.id)) =
      some ["change-0", "change-1"] ∧
    (acceptChange twoDeletionsDoc "change-0").bind
        (fun d' => (getTrackChanges d').map (fun cs => cs.map (fun x => x.id))) =
      some ["change-0"] ∧
    (rejectChange twoDeletionsDoc "change-0").bind
        (fun d' => (getTrackChanges d').map (fun cs => cs.map (fun x => x.id))) =
      some ["change-0"] := by decide

/-! ## Claim C4 -/

/-- C4: a change id that no record of getTrackChanges(d) carries is never
located by the shared traversal, so acceptChange and rejectChange both
return null (modelled as none); being total functions of the document they
raise no exception. -/
theorem C4_stale_id_gives_null (d : RTFDocument) (cs : List TrackChange)
    (changeId : String) (hcs : getTrackChanges d = some cs)
    (h : ∀ c ∈ cs, c.id ≠ changeId) :
    acceptChange d changeId = none ∧ rejectChange d changeId = none := by
  have hfind : findRevisionById d changeId = none := by
    apply findRevisionById_eq_none
    intro j hj heq
    obtain ⟨h1, _, _⟩ := getTrackChanges_spec d cs hcs
    have hlen := getTrackChanges_length d cs hcs
    have hmem : mkChangeId j ∈ cs.map (fun c => c.id) := by
      rw [h1]
      exact List.mem_map_of_mem _ (List.mem_range.2 (by omega))
    obtain ⟨c, hcmem, hcid⟩ := List.mem_map.1 hmem
    exact h c hcmem (by rw [hcid, ← heq])
  constructor
  · rw [acceptChange, hfind]
  · rw [rejectChange, hfind]

/-- C4 witness: a stale id on a concrete document. -/
theorem C4_stale_id_gives_null_witness :
    (getTrackChanges sampleDoc = some sampleChanges ∧
     (∀ c ∈ sampleChanges, c.id ≠ "change-7")) ∧
    (acceptChange sampleDoc "change-7" = none ∧ rejectChange sampleDoc "change-7" = none) :=
  ⟨⟨by decide, by decide⟩,
   C4_stale_id_gives_null sampleDoc sampleChanges "change-7" (by decide) (by decide)⟩

/-! ## Claim C10 -/

/-- C10: getTrackChanges emits one record per revision sitting directly in a
paragraph's content (a nested RevisionNode yields no record of its own, its
text being flattened into the enclosing record), and findRevisionById can
only ever locate a node that is a direct element of a paragraph's content
list. -/
theorem C10_only_direct_revisions_addressable (d : RTFDocument) (cs : List TrackChange)
    (hcs : getTrackChanges d = some cs) :
    cs.length = countTopRevisions d ∧
    cs.map (fun c => c.text) = (topRevisions d.content).map extractTextOne ∧
    (∀ changeId loc, findRevisionById d changeId = some loc →
      ∃ pcs fmt, d.content.get? loc.paragraphIndex = some (.paragraph pcs fmt) ∧
        pcs.get? loc.inlineIndex = some loc.revisionNode ∧
        loc.revisionNode.isRevision = true) :=
  ⟨getTrackChanges_length d cs hcs, (getTrackChanges_spec d cs hcs).2.1,
   fun changeId loc h => findRevisionById_found d changeId loc h⟩

/-- C10 witness: on the nested document exactly one record is emitted (for
the outer insertion), its text flattening the nested deletion's text. -/
theorem C10_only_direct_revisions_addressable_witness :
    getTrackChanges nestedRevisionDoc = some nestedChanges ∧
    (nestedChanges.length = countTopRevisions nestedRevisionDoc ∧
     nestedChanges.map (fun c => c.text) =
        (topRevisions nestedRevisionDoc.content).map extractTextOne ∧
     (∀ changeId loc, findRevisionById nestedRevisionDoc changeId = some loc →
       ∃ pcs fmt, nestedRevisionDoc.content.get? loc.paragraphIndex = some (.paragraph pcs fmt) ∧
         pcs.get? loc.inlineIndex = some loc.revisionNode ∧
         loc.revisionNode.isRevision = true)) :=
  ⟨by decide, C10_only_direct_revisions_addressable nestedRevisionDoc nestedChanges (by decide)⟩

/-! ## Claim C8 -/

/-- C8 (amended): whenever getTrackChanges succeeds, every record's
authorIndex is the revision's author index defaulted to 0 when missing and
is non-negative; the author is the revisionTable entry's name at that index
when it is within range and "Unknown" when the index is at or beyond the
table length.  (A negative author index makes the lookup throw — extraction
yields no result at all; and a missing author index is defaulted to 0 and
then looked up, rather than reported as "Unknown": see the
counterexample.) -/
theorem C8_author_resolution (d : RTFDocument) (cs : List TrackChange)
    (hcs : getTrackChanges d = some cs) :
    ∀ c ∈ cs, 0 ≤ c.authorIndex ∧
      (c.authorIndex < (d.revisionTable.length : Int) →
        (d.revisionTable.get? c.authorIndex.toNat).map (fun a => a.name) = some c.author) ∧
      ((d.revisionTable.length : Int) ≤ c.authorIndex → c.author = "Unknown") := by
  intro c hc
  have hlk := (getTrackChanges_spec d cs hcs).2.2 c hc
  rw [authorNameLookup] at hlk
  by_cases hlt : c.authorIndex < (d.revisionTable.length : Int)
  · rw [if_pos hlt] at hlk
    by_cases hge : 0 ≤ c.authorIndex
    · rw [if_pos hge] at hlk
      exact ⟨hge, fun _ => hlk, fun hge2 => absurd hlt (not_lt.2 hge2)⟩
    · rw [if_neg hge] at hlk
      simp at hlk
  · rw [if_neg hlt] at hlk
    simp only [Option.some.injEq] at hlk
    refine ⟨?_, fun hlt2 => absurd hlt2 hlt, fun _ => hlk.symm⟩
    have : (0 : Int) ≤ (d.revisionTable.length : Int) := Int.ofNat_nonneg _
    omega

/-- C8 witness: the amended characterization on a concrete document. -/
theorem C8_author_resolution_witness :
    getTrackChanges sampleDoc = some sampleChanges ∧
    (∀ c ∈ sampleChanges,
      0 ≤ c.authorIndex ∧
      (c.authorIndex < (sampleDoc.revisionTable.length : Int) →
        (sampleDoc.revisionTable.get? c.authorIndex.toNat).map (fun a => a.name) = some c.author) ∧
      ((sampleDoc.revisionTable.length : Int) ≤ c.authorIndex → c.author = "Unknown")) :=
  ⟨by decide, C8_author_resolution sampleDoc sampleChanges (by decide)⟩

/-- C8 counterexample: with the author index missing, the record's author is
the table entry at the defaulted index 0 ("Alice"), not "Unknown"; and with
a negative author index the lookup throws (extraction returns no result)
instead of yielding "Unknown". -/
theorem C8_counterexample_missing_and_negative_author :
    (getTrackChanges missingAuthorDoc).map (fun cs => cs.map (fun c => c.author)) =
      some ["Alice"] ∧
    ("Alice" : String) ≠ "Unknown" ∧
    getTrackChanges negativeAuthorDoc = none := by decide

/-! ## Claim C3 -/

/-- C3: acceptChange and rejectChange never touch the argument document.
In the embedding both operations are pure functions that assemble their
result exclusively from cloneDocument(doc); the JSON-round-trip clone is a
lossless rebuild of every node, table and array (proved by structural
induction), so the operations observe exactly the value of d, the original
document is the unchanged value d after the call, and extracting from it
still reports the original set of changes. -/
theorem C3_accept_reject_never_mutate_document (d : RTFDocument) (changeId : String) :
    cloneDocument d = d ∧
    acceptChange (cloneDocument d) changeId = acceptChange d changeId ∧
    rejectChange (cloneDocument d) changeId = rejectChange d changeId ∧
    getTrackChanges (cloneDocument d) = getTrackChanges d := by
  rw [cloneDocument_eq]
  exact ⟨rfl, rfl, rfl, rfl⟩

/-! ## Claim C5 -/

/-- The DoS test input: 200 nested groups. -/
def deepNestedInput : String :=
  String.mk (List.replicate 200 (Char.ofNat 123) ++ "\\rtf1 text".data ++
    List.replicate 200 (Char.ofNat 125))

set_option maxRecDepth 100000 in
/-- C5 (code bug): the parser has no nesting-depth counter at all, so the
200-level input from the repository's own DoS test suite parses
successfully into a one-paragraph document instead of raising the
depth-limit error that the tests and changelog require. -/
theorem C5_deep_nesting_parses_without_error :
    parseRTF deepNestedInput =
      .ok { emptyDocument with content := [.paragraph [.text "text" {}] {}] } := by decide

/-! ## Claim C7 -/

/-- The color-clamp test input. -/
def colorClampInput : String :=
  "\x7b\\rtf1\x7b\\colortbl;\\red999\\green-50\\blue300;\x7d\x7d"

/-- C7 (code bug): parseColorTable stores the red/green/blue parameters
verbatim; the entry at index 1 is (999, -50, 300) and not the clamped
(255, 0, 255) that the repository's security tests and changelog require. -/
theorem C7_color_components_stored_unclamped :
    parseRTF colorClampInput =
      .ok { emptyDocument with colorTable := [⟨0, 0, 0⟩, ⟨999, -50, 300⟩] } ∧
    (some (⟨999, -50, 300⟩ : RGBColor) ≠ some (⟨255, 0, 255⟩ : RGBColor)) := by decide

/-! ## Claim C6 -/

/-- A token that is neither a group opener nor a group closer: a body made
of these is parsed entirely by the top-level document loop. -/
def flatBodyToken : Token → Bool
  | .groupStart => false
  | .groupEnd => false
  | _ => true

/-- The paragraph count the document loop realises on a flat token body,
read off the code: every par control word flushes a paragraph (even an
empty one), a line control word flushes only when inline content is
pending, text makes content pending, and pending trailing content is
flushed once at the end. -/
def specParCount : List Token → Bool → Nat
  | [], pending => if pending then 1 else 0
  | .controlWord name _ :: rest, pending =>
      if name = "par" then 1 + specParCount rest false
      else if name = "line" then
        (if pending then 1 + specParCount rest false else specParCount rest pending)
      else specParCount rest pending
  | .text _ :: rest, _ => specParCount rest true
  | _ :: rest, pending => specParCount rest pending

/-- Number of par control-word tokens in a token stream. -/
def countParTokens (ts : List Token) : Nat :=
  (ts.filter (fun t => match t with | .controlWord n _ => n = "par" | _ => false)).length

/-- Paragraph count of the parse result, when parsing succeeds. -/
def parsedParagraphCount (s : String) : Option Nat :=
  (parseRTF s).toOption.map (fun d => d.content.length)

theorem pdcl_nil (f : Nat) (stack : List FormattingState) (ps : ParagraphState)
    (doc : RTFDocument) (cur : List InlineNode) :
    parseDocumentContentLoop (f + 1) [] stack ps doc cur = .ok (flushFinal doc ps cur, []) := rfl

theorem pdcl_controlWord (f : Nat) (name : String) (param : Option Int) (rest : List Token)
    (stack : List FormattingState) (ps : ParagraphState) (doc : RTFDocument)
    (cur : List InlineNode) :
    parseDocumentContentLoop (f + 1) (.controlWord name param :: rest) stack ps doc cur =
      (if name = "par" || name = "line" then
        if cur.length > 0 || name = "par" then
          parseDocumentContentLoop f rest stack {}
            { doc with content := doc.content ++ [createParagraph ps cur] } []
        else parseDocumentContentLoop f rest stack ps doc cur
      else if isHeaderControlWord name then
        parseDocumentContentLoop f rest stack ps (applyHeaderControlWord doc name param) cur
      else if isFormattingControlWord name then
        parseDocumentContentLoop f rest (updateTopFormatting stack name param) ps doc cur
      else if isParagraphControlWord name then
        parseDocumentContentLoop f rest stack (applyParagraphControlWord ps name param) doc cur
      else parseDocumentContentLoop f rest stack ps doc cur) := rfl

theorem pdcl_text (f : Nat) (v : String) (rest : List Token)
    (stack : List FormattingState) (ps : ParagraphState) (doc : RTFDocument)
    (cur : List InlineNode) :
    parseDocumentContentLoop (f + 1) (.text v :: rest) stack ps doc cur =
      parseDocumentContentLoop f rest stack ps doc
        (cur ++ [createTextNode (stack.headD {}) v]) := rfl

theorem pdcl_controlSymbol (f : Nat) (n v : String) (rest : List Token)
    (stack : List FormattingState) (ps : ParagraphState) (doc : RTFDocument)
    (cur : List InlineNode) :
    parseDocumentContentLoop (f + 1) (.controlSymbol n v :: rest) stack ps doc cur =
      parseDocumentContentLoop f rest stack ps doc cur := rfl

theorem flushFinal_content_length (doc : RTFDocument) (ps : ParagraphState)
    (cur : List InlineNode) :
    (flushFinal doc ps cur).content.length =
      doc.content.length + (if cur.isEmpty then 0 else 1) := by
  by_cases h : cur.isEmpty <;> simp [flushFinal, h]

/-- On a flat body the document loop always succeeds, consumes everything,
and adds exactly specParCount paragraphs to the accumulated document. -/
theorem pdcl_flat_count (body : List Token) (hflat : body.all flatBodyToken = true) :
    ∀ fuel, body.length < fuel →
    ∀ stack ps doc cur, ∃ doc2,
      parseDocumentContentLoop fuel body stack ps doc cur = .ok (doc2, []) ∧
      doc2.content.length = doc.content.length + specParCount body (!cur.isEmpty) := by
  induction body with
  | nil =>
    intro fuel hf stack ps doc cur
    cases fuel with
    | zero => omega
    | succ f =>
      refine ⟨flushFinal doc ps cur, pdcl_nil f stack ps doc cur, ?_⟩
      rw [flushFinal_content_length]
      cases cur <;> rfl
  | cons tok rest ih =>
    intro fuel hf stack ps doc cur
    simp only [List.all_cons, Bool.and_eq_true] at hflat
    obtain ⟨htok, hrest⟩ := hflat
    cases fuel with
    | zero => omega
    | succ f =>
    have hfr : rest.length < f := by simp only [List.length_cons] at hf; omega
    cases tok with
    | groupStart => simp [flatBodyToken] at htok
    | groupEnd => simp [flatBodyToken] at htok
    | controlWord name param =>
      by_cases hpar : name = "par"
      · subst hpar
        have hsel : parseDocumentContentLoop (f + 1)
            (Token.controlWord "par" param :: rest) stack ps doc cur =
            parseDocumentContentLoop f rest stack {}
              { doc with content := doc.content ++ [createParagraph ps cur] } [] := by
          simp [parseDocumentContentLoop]
        rw [hsel]
        obtain ⟨doc2, heq, hlen⟩ := ih hrest f hfr stack {}
          { doc with content := doc.content ++ [createParagraph ps cur] } []
        refine ⟨doc2, heq, ?_⟩
        have hspec : specParCount (Token.controlWord "par" param :: rest) (!cur.isEmpty) =
            1 + specParCount rest false := rfl
        rw [hspec, hlen]
        simp only [List.isEmpty_nil, Bool.not_true, List.length_append, List.length_cons,
          List.length_nil]
        omega
      · by_cases hline : name = "line"
        · subst hline
          cases cur with
          | nil =>
            have hsel : parseDocumentContentLoop (f + 1)
                (Token.controlWord "line" param :: rest) stack ps doc [] =
                parseDocumentContentLoop f rest stack ps doc [] := by
              simp [parseDocumentContentLoop]
            rw [hsel]
            have hspec : specParCount (Token.controlWord "line" param :: rest)
                (!List.isEmpty []) = specParCount rest (!List.isEmpty ([] : List InlineNode)) := rfl
            rw [hspec]
            exact ih hrest f hfr stack ps doc []
          | cons a as =>
            have hsel : parseDocumentContentLoop (f + 1)
                (Token.controlWord "line" param :: rest) stack ps doc (a :: as) =
                parseDocumentContentLoop f rest stack {}
                  { doc with content := doc.content ++ [createParagraph ps (a :: as)] } [] := by
              simp [parseDocumentContentLoop]
            rw [hsel]
            obtain ⟨doc2, heq, hlen⟩ := ih hrest f hfr stack {}
              { doc with content := doc.content ++ [createParagraph ps (a :: as)] } []
            refine ⟨doc2, heq, ?_⟩
            have hspec : specParCount (Token.controlWord "line" param :: rest)
                (!(a :: as).isEmpty) = 1 + specParCount rest false := rfl
            rw [hspec, hlen]
            simp only [List.isEmpty_nil, Bool.not_true, List.length_append, List.length_cons,
              List.length_nil]
            omega
        · rw [pdcl_controlWord]
          have hcond : (name = "par" || name = "line") = false := by
            simp [hpar, hline]
          simp only [hcond, Bool.false_eq_true, if_false]
          have hspec : specParCount (Token.controlWord name param :: rest) (!cur.isEmpty) =
              specParCount rest (!cur.isEmpty) := by
            simp [specParCount, hpar, hline]
          rw [hspec]
          by_cases h1 : isHeaderControlWord name
          · simp only [h1, if_true]
            obtain ⟨doc2, heq, hlen⟩ := ih hrest f hfr stack ps
              (applyHeaderControlWord doc name param) cur
            refine ⟨doc2, heq, ?_⟩
            have : (applyHeaderControlWord doc name param).content = doc.content := by
              unfold applyHeaderControlWord
              split_ifs <;> first | rfl | (cases param <;> rfl)
            rw [hlen, this]
          · simp only [h1, Bool.false_eq_true, if_false]
            by_cases h2 : isFormattingControlWord name
            · simp only [h2, if_true]
              exact ih hrest f hfr (updateTopFormatting stack name param) ps doc cur
            · simp only [h2, Bool.false_eq_true, if_false]
              by_cases h3 : isParagraphControlWord name
              · simp only [h3, if_true]
                exact ih hrest f hfr stack (applyParagraphControlWord ps name param) doc cur
              · simp only [h3, Bool.false_eq_true, if_false]
                exact ih hrest f hfr stack ps doc cur
    | controlSymbol n v =>
      rw [pdcl_controlSymbol]
      have hspec : specParCount (Token.controlSymbol n v :: rest) (!cur.isEmpty) =
          specParCount rest (!cur.isEmpty) := rfl
      rw [hspec]
      exact ih hrest f hfr stack ps doc cur
    | text v =>
      rw [pdcl_text]
      obtain ⟨doc2, heq, hlen⟩ := ih hrest f hfr stack ps doc
        (cur ++ [createTextNode (stack.headD {}) v])
      refine ⟨doc2, heq, ?_⟩
      have hne : (cur ++ [createTextNode (stack.headD {}) v]).isEmpty = false := by
        simp
      rw [hlen, hne]
      rfl

/-- C6 (corrected): for every flat token body (no nested groups) the parse
succeeds and the paragraph count is the code's specParCount: one paragraph
per par control word (even when empty), one per line control word that
arrives with pending inline content — contrary to the claim that line never
creates a paragraph — plus one for non-empty trailing content; a par inside
a brace-delimited group (non-flat input, see the counterexample) is skipped
by the group parser and creates no paragraph. -/
theorem C6_flat_paragraph_count (body : List Token)
    (hflat : body.all flatBodyToken = true) :
    ∃ doc, parseDocument (Token.groupStart :: body) = .ok doc ∧
      doc.content.length = specParCount body false := by
  obtain ⟨doc2, heq, hlen⟩ :=
    pdcl_flat_count body hflat (body.length + 1) (by omega) [{}] {} emptyDocument []
  refine ⟨doc2, ?_, ?_⟩
  · simp only [parseDocument, heq]
    rfl
  · simpa [emptyDocument] using hlen

/-- Witness for C6: a body with one par token and trailing text parses to
exactly 2 paragraphs. -/
theorem C6_flat_paragraph_count_witness :
    ([Token.text "a", Token.controlWord "par" none, Token.text "b"].all flatBodyToken = true) ∧
    (∃ doc, parseDocument (Token.groupStart ::
        [Token.text "a", Token.controlWord "par" none, Token.text "b"]) = .ok doc ∧
      doc.content.length =
        specParCount [Token.text "a", Token.controlWord "par" none, Token.text "b"] false) ∧
    specParCount [Token.text "a", Token.controlWord "par" none, Token.text "b"] false = 2 :=
  ⟨by decide, C6_flat_paragraph_count _ (by decide), by decide⟩

/-- Counterexample for C6 as stated: the first input has one par break
(inside a group) and non-empty trailing content, so the claim demands 2
paragraphs, but the parser produces 1 (the group parser skips par); the
second input has no par break and non-empty trailing content, so the claim
demands 1 paragraph, but line flushes and the parser produces 2. -/
theorem C6_counterexample_group_par_and_line :
    ((tokenize "\x7b\\rtf1 \x7ba\\par b\x7d\x7d").toOption.map countParTokens = some 1 ∧
      parsedParagraphCount "\x7b\\rtf1 \x7ba\\par b\x7d\x7d" = some 1) ∧
    ((tokenize "\x7b\\rtf1 a\\line b\x7d").toOption.map countParTokens = some 0 ∧
      parsedParagraphCount "\x7b\\rtf1 a\\line b\x7d" = some 2) := by decide

/-! ## Claim C9 -/

theorem digit_range (c : Char) (h : isAsciiDigit c = true) :
    48 ≤ c.toNat ∧ c.toNat ≤ 57 := by
  simp only [isAsciiDigit, Bool.and_eq_true, decide_eq_true_eq] at h
  obtain ⟨h1, h2⟩ := h
  rw [Char.le_def] at h1 h2
  exact ⟨h1, h2⟩

theorem digit_not_alpha (c : Char) (h : isAsciiDigit c = true) : isAsciiAlpha c = false := by
  obtain ⟨h1, h2⟩ := digit_range c h
  simp only [isAsciiAlpha, Bool.or_eq_false_iff, Bool.and_eq_false_iff]
  constructor
  · left
    simp only [decide_eq_false_iff_not, Char.le_def]
    show ¬ ((97 : Nat) ≤ c.toNat)
    omega
  · left
    simp only [decide_eq_false_iff_not, Char.le_def]
    show ¬ ((65 : Nat) ≤ c.toNat)
    omega

theorem digitVal_le_9 (c : Char) (h : isAsciiDigit c = true) : digitVal c ≤ 9 := by
  obtain ⟨h1, h2⟩ := digit_range c h
  unfold digitVal
  omega

theorem digit_ne_dash (c : Char) (h : isAsciiDigit c = true) : c ≠ '-' := by
  intro he
  obtain ⟨h1, _⟩ := digit_range c h
  rw [he] at h1
  exact absurd h1 (by decide)

theorem natFromDigits_foldl_lt (ds : List Char) : ∀ a : Nat, ds.all isAsciiDigit = true →
    List.foldl (fun a c => 10 * a + digitVal c) a ds < (a + 1) * 10 ^ ds.length := by
  induction ds with
  | nil => intro a _; simp
  | cons d ds ih =>
    intro a hall
    simp only [List.all_cons, Bool.and_eq_true] at hall
    obtain ⟨hd, hds⟩ := hall
    have h9 := digitVal_le_9 d hd
    simp only [List.foldl_cons, List.length_cons]
    calc List.foldl (fun a c => 10 * a + digitVal c) (10 * a + digitVal d) ds
        < (10 * a + digitVal d + 1) * 10 ^ ds.length := ih (10 * a + digitVal d) hds
      _ ≤ ((a + 1) * 10) * 10 ^ ds.length := Nat.mul_le_mul_right _ (by omega)
      _ = (a + 1) * 10 ^ (ds.length + 1) := by rw [pow_succ]; ring

theorem natFromDigits_lt (ds : List Char) (h : ds.all isAsciiDigit = true) :
    natFromDigits ds < 10 ^ ds.length := by
  have := natFromDigits_foldl_lt ds 0 h
  simpa [natFromDigits] using this

theorem natFromDigits_safe (ds : List Char) (h : ds.all isAsciiDigit = true)
    (hlen : ds.length ≤ 9) : natFromDigits ds ≤ 2 ^ 53 - 1 := by
  have h1 := natFromDigits_lt ds h
  have h2 : (10 : Nat) ^ ds.length ≤ 10 ^ 9 := Nat.pow_le_pow_right (by omega) hlen
  have h3 : (10 : Nat) ^ 9 ≤ 2 ^ 53 - 1 := by norm_num
  omega

theorem isSafeInteger_coe (n : Nat) (h : n ≤ 2 ^ 53 - 1) :
    isSafeInteger (n : Int) = true := by
  simp only [isSafeInteger, Int.natAbs_ofNat, decide_eq_true_eq]
  exact h

theorem isSafeInteger_neg_coe (n : Nat) (h : n ≤ 2 ^ 53 - 1) :
    isSafeInteger (-(n : Int)) = true := by
  simp only [isSafeInteger, Int.natAbs_neg, Int.natAbs_ofNat, decide_eq_true_eq]
  exact h


theorem scanNameChars_u (s : Char) (r : List Char) (h : isAsciiAlpha s = false) :
    scanNameChars ('u' :: s :: r) 0 = (['u'], s :: r) := by
  have hu : isAsciiAlpha 'u' = true := by decide
  simp [scanNameChars, h, hu, MAX_CONTROL_WORD_LENGTH]

theorem scanDigitChars_exact (ds : List Char) : ∀ (start : Nat) (c : Char) (tail : List Char),
    ds.all isAsciiDigit = true → start + ds.length ≤ MAX_PARAM_DIGITS →
    isAsciiDigit c = false →
    scanDigitChars (ds ++ c :: tail) start = (ds, c :: tail) := by
  induction ds with
  | nil =>
    intro start c tail _ _ hc
    simp [scanDigitChars, hc]
  | cons d ds ih =>
    intro start c tail hall hlen hc
    simp only [List.all_cons, Bool.and_eq_true] at hall
    obtain ⟨hd, hds⟩ := hall
    simp only [MAX_PARAM_DIGITS, List.length_cons] at hlen
    have hlt : ¬ (MAX_PARAM_DIGITS ≤ start) := by
      simp only [MAX_PARAM_DIGITS]
      omega
    have hrec := ih (start + 1) c tail hds
      (by simp only [MAX_PARAM_DIGITS]; omega) hc
    simp [scanDigitChars, hd, hlt, hrec]

theorem scanControlWord_u (sign : Bool) (ds : List Char) (c : Char)
    (hne : ds ≠ []) (hall : ds.all isAsciiDigit = true) (hlen : ds.length ≤ 9)
    (hcd : isAsciiDigit c = false) (hcs : c ≠ ' ') :
    scanControlWord ('u' :: (if sign then '-' :: ds else ds) ++ [c]) =
      ("u", some (if sign then -(natFromDigits ds : Int) else (natFromDigits ds : Int)), [c]) := by
  obtain ⟨d, ds2, rfl⟩ : ∃ d ds2, ds = d :: ds2 := by
    cases ds with
    | nil => exact absurd rfl hne
    | cons d ds2 => exact ⟨d, ds2, rfl⟩
  have hd : isAsciiDigit d = true := by
    simp only [List.all_cons, Bool.and_eq_true] at hall
    exact hall.1
  have hsafe := natFromDigits_safe (d :: ds2) hall hlen
  have hrest3 : ∀ tail : List Char,
      (match c :: tail with | ' ' :: r => r | r => r) = c :: tail := by
    intro tail
    split
    next heq => exact absurd (List.cons.inj heq).1 hcs
    next => rfl
  cases sign with
  | false =>
    show scanControlWord ('u' :: (d :: ds2) ++ [c]) =
      ("u", some (natFromDigits (d :: ds2) : Int), [c])
    have hname : scanNameChars ('u' :: d :: (ds2 ++ [c])) 0 = (['u'], d :: (ds2 ++ [c])) :=
      scanNameChars_u d (ds2 ++ [c]) (digit_not_alpha d hd)
    have hdigits : scanDigitChars (d :: (ds2 ++ [c])) 0 = (d :: ds2, [c]) := by
      have := scanDigitChars_exact (d :: ds2) 0 c [] hall
        (by simp only [MAX_PARAM_DIGITS, List.length_cons]
            have h2 : (d :: ds2).length = ds2.length + 1 := rfl
            omega) hcd
      simpa using this
    unfold scanControlWord
    simp only [List.cons_append, hname]
    split
    next r heq => exact absurd (List.cons.inj heq).1 (digit_ne_dash d hd)
    next c2 r heq =>
      obtain ⟨rfl, rfl⟩ := List.cons.inj heq
      simp only [hd, hdigits, isSafeInteger_coe _ hsafe,
        Bool.false_eq_true, if_true, if_false, eq_self_iff_true]
      rw [hrest3 []]
      try rfl
    next heq => simp at heq
  | true =>
    show scanControlWord ('u' :: '-' :: (d :: ds2) ++ [c]) =
      ("u", some (-(natFromDigits (d :: ds2) : Int)), [c])
    have hname : scanNameChars ('u' :: '-' :: (d :: (ds2 ++ [c]))) 0 =
        (['u'], '-' :: (d :: (ds2 ++ [c]))) :=
      scanNameChars_u '-' (d :: (ds2 ++ [c])) (by decide)
    have hdigits : scanDigitChars (d :: (ds2 ++ [c])) 1 = (d :: ds2, [c]) := by
      have := scanDigitChars_exact (d :: ds2) 1 c [] hall
        (by simp only [MAX_PARAM_DIGITS, List.length_cons]
            have h2 : (d :: ds2).length = ds2.length + 1 := rfl
            omega) hcd
      simpa using this
    unfold scanControlWord
    simp only [List.cons_append, hname, hdigits, List.isEmpty_cons,
      isSafeInteger_neg_coe _ hsafe, Bool.false_eq_true, if_true, if_false, eq_self_iff_true]
    rw [hrest3 []]
    try rfl


theorem tokenizeLoop_u_some (f : Nat) (c2 : Char) (cs2 : List Char) (v : Int) (r : List Char)
    (ha : isAsciiAlpha c2 = true)
    (hscw : scanControlWord (c2 :: cs2) = ("u", some v, r)) :
    tokenizeLoop (f + 1) ('\\' :: c2 :: cs2) =
      (do
        let toks ← tokenizeLoop f r.tail
        .ok (Token.text (String.singleton (fromCharCode (if v < 0 then 65536 + v else v)))
          :: toks)) := by
  simp [tokenizeLoop, ha, hscw]

/-- C9 (corrected): a  u control word with a decimal parameter of up to nine
digits, positive or negative, followed by one non-digit non-space alternate
character, is never skipped: the tokenizer always emits exactly one text
token whose character is String.fromCharCode applied to the parameter
(negatives are first offset by 65536), with no range check whatsoever, and
the one alternate character is consumed.  In particular a value above 65535
(outside the claimed -32768..65535 window) still emits a token, reduced
modulo 65536 by fromCharCode, instead of being skipped. -/
theorem C9_unicode_directive (sign : Bool) (ds : List Char) (c : Char) (n : Int)
    (hn : n = if sign then -(natFromDigits ds : Int) else (natFromDigits ds : Int))
    (hne : ds ≠ []) (hall : ds.all isAsciiDigit = true) (hlen : ds.length ≤ 9)
    (hcd : isAsciiDigit c = false) (hcs : c ≠ ' ') :
    tokenize (String.mk ('\\' :: 'u' :: ((if sign then '-' :: ds else ds) ++ [c]))) =
      .ok [Token.text (String.singleton (fromCharCode (if n < 0 then 65536 + n else n)))] := by
  subst hn
  have hscw : scanControlWord ('u' :: ((if sign then '-' :: ds else ds) ++ [c])) =
      ("u", some (if sign then -(natFromDigits ds : Int) else (natFromDigits ds : Int)), [c]) := by
    have := scanControlWord_u sign ds c hne hall hlen hcd hcs
    simpa [List.cons_append] using this
  have hsmall : ¬ (MAX_DOCUMENT_SIZE <
      (String.mk ('\\' :: 'u' :: ((if sign then '-' :: ds else ds) ++ [c]))).data.length) := by
    show ¬ (MAX_DOCUMENT_SIZE <
      ('\\' :: 'u' :: ((if sign then '-' :: ds else ds) ++ [c])).length)
    have hup : ('\\' :: 'u' :: ((if sign then '-' :: ds else ds) ++ [c])).length
        ≤ ds.length + 4 := by
      cases sign <;> simp [List.length_append, List.length_cons]
    simp only [MAX_DOCUMENT_SIZE]
    omega
  unfold tokenize
  rw [if_neg hsmall]
  show tokenizeLoop (('\\' :: 'u' :: ((if sign then '-' :: ds else ds) ++ [c])).length + 1)
      ('\\' :: 'u' :: ((if sign then '-' :: ds else ds) ++ [c])) = _
  rw [tokenizeLoop_u_some (('\\' :: 'u' :: ((if sign then '-' :: ds else ds) ++ [c])).length)
    'u' ((if sign then '-' :: ds else ds) ++ [c]) _ [c] (by decide) hscw]
  have hfe : tokenizeLoop (('\\' :: 'u' :: ((if sign then '-' :: ds else ds) ++ [c])).length)
      (List.tail [c]) = .ok [] := rfl
  rw [hfe]
  rfl

/-- Witness for C9: the directive u70000 followed by the alternate
character is tokenized to the single character with code 70000 mod 65536. -/
theorem C9_unicode_directive_witness :
    ((70000 : Int) = if false then -(natFromDigits ['7', '0', '0', '0', '0'] : Int)
      else (natFromDigits ['7', '0', '0', '0', '0'] : Int)) ∧
    (['7', '0', '0', '0', '0'] : List Char) ≠ [] ∧
    ['7', '0', '0', '0', '0'].all isAsciiDigit = true ∧
    ['7', '0', '0', '0', '0'].length ≤ 9 ∧
    isAsciiDigit '?' = false ∧
    '?' ≠ ' ' ∧
    tokenize (String.mk ('\\' :: 'u' ::
        ((if false then '-' :: ['7', '0', '0', '0', '0'] else ['7', '0', '0', '0', '0'])
          ++ ['?']))) =
      .ok [Token.text (String.singleton (fromCharCode
        (if (70000 : Int) < 0 then 65536 + 70000 else (70000 : Int))))] :=
  ⟨by decide, by decide, by decide, by decide, by decide, by decide,
   C9_unicode_directive false ['7', '0', '0', '0', '0'] '?' 70000 (by decide) (by decide)
     (by decide) (by decide) (by decide) (by decide)⟩

/-- Counterexample to the claim as stated: 70000 lies outside
-32768..65535, yet the directive is not skipped -- a text token is emitted,
holding fromCharCode 70000, i.e. the character 70000 mod 65536 = 4464. -/
theorem C9_counterexample_out_of_range_directive :
    (65535 : Int) < 70000 ∧
    tokenize "\\u70000?" = .ok [Token.text (String.singleton (fromCharCode 70000))] ∧
    fromCharCode 70000 = Char.ofNat 4464 := by decide


end Rtf
